import Mathlib

/-!
Verification development for the bicycle-helmet data fetcher/filter
(`src/app.py`).  The Python program is shallowly embedded: record values
are strings or numbers (numbers modelled as exact rationals), records and
filter specifications are association lists, fallible operations return
`Option`/`Except`.  The two halves of the program are modelled:

* the filter evaluator (`filter_bicycle_data`, `_item_matches_filters`,
  `_check_threshold_filter`), and
* the extractor (`fetch_bicycle_data`'s regex capture, the two textual
  repair substitutions, and the strict JSON parse).
-/

namespace BikeHelmet

/-- A record field value: the JSON values that occur in helmet records are
strings and numbers.  Numbers are modelled as exact rationals (the Python
program uses IEEE floats; every value in this dataset is a small decimal,
where the comparisons performed by the program agree with exact
arithmetic). -/
inductive Value where
  | str (s : String)
  | num (q : ℚ)
deriving DecidableEq

/-- A helmet record: a mapping from field name to value, modelled as an
association list with the insertion order of the Python `dict`. -/
def Record : Type := List (String × Value)

instance : DecidableEq Record := by unfold Record; infer_instance

/-- The caller-supplied filters (`**filters` in `filter_bicycle_data`),
as an ordered field-to-value mapping. -/
def FilterSpec : Type := List (String × Value)

/-- `MAX_THRESHOLD_FIELDS = {"cost", "score"}` (src/app.py line 20). -/
def maxThresholdFields : List String := ["cost", "score"]

/-- Python `str(value)` for record values.  A string is itself; an integer
renders as its decimal digits.  (Python renders non-integer floats with a
decimal point; that case is written here as the rational's `toString` and
is never hit by the dataset's comparisons, which only take the `str` of a
value whose round trip through `float` is the identity.) -/
def pyStr : Value → String
  | .str s => s
  | .num q => if q.den = 1 then toString q.num else toString q

/-- Characters the Python `float` constructor strips around a numeric
string (a conservative ASCII whitespace set). -/
def wsChar (c : Char) : Bool :=
  c = ' ' || c = '\t' || c = '\n' || c = '\r' || c = '\x0c' || c = '\x0b'

/-- Numeric value of a list of decimal digit characters, most significant
first. -/
def digitsToNat (ds : List Char) : Nat :=
  ds.foldl (fun a c => 10 * a + (c.toNat - '0'.toNat)) 0

/-- The exact rational value of a signed decimal literal with integer-part
digits `ip`, fractional-part digits `fp` and decimal exponent `e`
(`sgn · ip.fp · 10^e`).  Built from integer arithmetic and one `Rat.divInt`
so that it evaluates by kernel reduction. -/
def decValue (sgn : Int) (ip fp : List Char) (e : Int) : ℚ :=
  let n : Int := sgn * ((digitsToNat ip) * 10 ^ fp.length + digitsToNat fp)
  match e with
  | .ofNat k => Rat.divInt (n * 10 ^ k) (10 ^ fp.length)
  | .negSucc k => Rat.divInt n (10 ^ fp.length * 10 ^ (k + 1))

/-- Handle the optional exponent suffix after a decimal mantissa
(`e`/`E`, optional sign, required digits, nothing after). -/
def withExponent (sgn : Int) (ip fp rest : List Char) : Option ℚ :=
  match rest with
  | [] => some (decValue sgn ip fp 0)
  | e :: r2 =>
    if e = 'e' || e = 'E' then
      let esigned : Int × List Char :=
        match r2 with
        | '+' :: r => (1, r)
        | '-' :: r => (-1, r)
        | r => (1, r)
      let ed := esigned.2.takeWhile Char.isDigit
      let r4 := esigned.2.dropWhile Char.isDigit
      if ed.isEmpty || !r4.isEmpty then none
      else some (decValue sgn ip fp (esigned.1 * (digitsToNat ed : Int)))
    else none

/-- Models Python `float(s)` on a string: optional surrounding whitespace,
an optional sign, a decimal mantissa (`digits`, `digits.digits`,
`digits.`, or `.digits`) and an optional exponent; anything else
(including `inf`/`nan`/underscore forms, which never occur in this
dataset) fails. -/
def pyFloat? (s : String) : Option ℚ :=
  let cs := (((s.data.dropWhile wsChar).reverse.dropWhile wsChar)).reverse
  let signed : Int × List Char :=
    match cs with
    | '+' :: r => (1, r)
    | '-' :: r => (-1, r)
    | r => (1, r)
  let ip := signed.2.takeWhile Char.isDigit
  let rest := signed.2.dropWhile Char.isDigit
  match rest with
  | '.' :: rest2 =>
    let fp := rest2.takeWhile Char.isDigit
    let rest3 := rest2.dropWhile Char.isDigit
    if ip.isEmpty && fp.isEmpty then none
    else withExponent signed.1 ip fp rest3
  | _ => if ip.isEmpty then none else withExponent signed.1 ip [] rest

/-- Models `str(x).replace("$", "")` (src/app.py line 159): the pattern is
the single character `$` and the replacement is empty, so every dollar
sign is removed, wherever it occurs. -/
def stripDollars (s : String) : String :=
  ⟨s.data.filter (fun c => c ≠ '$')⟩

/-- Python `float(value)` on a record value (used for `score` and for the
filter threshold): a number is itself, a string is parsed. -/
def coerceNum : Value → Option ℚ
  | .num q => some q
  | .str s => pyFloat? s

/-- `float(str(item_value).replace("$", ""))` (src/app.py line 159), the
coercion used for `cost`.  For a numeric value, `str` produces its decimal
text, which contains no `$` and round-trips through `float`, so the result
is the number itself. -/
def coerceCost : Value → Option ℚ
  | .num q => some q
  | .str s => pyFloat? (stripDollars s)

/-- `_check_threshold_filter` (src/app.py lines 144-170): coerce the
record's value (dollar-stripping for `cost`, plain `float` for `score`)
and the filter's value; any coercion failure is caught, logged and turned
into `False`; otherwise test `item_val <= max_val`. -/
def checkThresholdFilter (itemValue filterValue : Value) (field : String) : Bool :=
  match (if field = "cost" then coerceCost itemValue else coerceNum itemValue),
      coerceNum filterValue with
  | some iv, some mv => decide (iv ≤ mv)
  | _, _ => false

/-- Python `str.lower()`, character by character (the dataset is ASCII,
where `lower` has no length-changing cases). -/
def pyLower (s : String) : String :=
  ⟨s.data.map Char.toLower⟩

/-- `_item_matches_filters` (src/app.py lines 117-141): every filter entry
must accept; a field absent from the record rejects it; `cost`/`score` use
the threshold check, every other field a case-insensitive textual
comparison. -/
def itemMatchesFilters (item : Record) (filters : FilterSpec) : Bool :=
  filters.all fun fv =>
    match item.lookup fv.1 with
    | none => false
    | some iv =>
      if fv.1 ∈ maxThresholdFields then checkThresholdFilter iv fv.2 fv.1
      else pyLower (pyStr iv) == pyLower (pyStr fv.2)

/-- The sort key `float(x.get("score", float("inf")))` (src/app.py line
108): a missing `score` is positive infinity (`⊤`); a present `score` goes
through `float`, whose failure (`none`) is an exception in Python. -/
def sortKey (item : Record) : Option (WithTop ℚ) :=
  match item.lookup "score" with
  | none => some ⊤
  | some v => (coerceNum v).map (fun q => (q : WithTop ℚ))

/-- The sort key with its failure defaulted; only used on records whose
key is known to compute. -/
def keyD (item : Record) : WithTop ℚ :=
  (sortKey item).getD ⊤

/-- The comparison of the Python sort: ascending by sort key. -/
def recLE (a b : Record) : Prop :=
  keyD a ≤ keyD b

instance : DecidableRel recLE := fun a b => by unfold recLE; infer_instance

instance : IsTotal Record recLE := ⟨fun a b => le_total (keyD a) (keyD b)⟩

instance : IsTrans Record recLE := ⟨fun _ _ _ h h' => le_trans h h'⟩

/-- `filter_bicycle_data` (src/app.py lines 80-114): empty input
short-circuits to `[]`; otherwise keep the records matching all filters
and sort them by the score key with Python's stable sort (modelled by the
stable `insertionSort`; a stable sort by a total preorder is unique, so
any stable sort gives Timsort's output).  Python computes every sort key
before comparing; a key that fails to coerce raises `ValueError`, and the
surrounding `except` re-raises `BicycleDataError` — modelled as
`Except.error`. -/
def filterBicycleData (data : List Record) (filters : FilterSpec) :
    Except String (List Record) :=
  if data.isEmpty then .ok []
  else
    let filtered := data.filter (fun r => itemMatchesFilters r filters)
    if filtered.all (fun r => (sortKey r).isSome) then
      .ok (filtered.insertionSort recLE)
    else .error "Failed to filter data"

/-! ### Extractor: regex capture, textual repair, JSON parse
(`fetch_bicycle_data`, src/app.py lines 54-77). -/

/-- The regex class `\w` (the dataset is ASCII; Python's Unicode word
characters beyond ASCII never occur). -/
def wordChar (c : Char) : Bool :=
  c.isAlpha || c.isDigit || c = '_'

/-- Does `\s*:` match here?  (The zero-width lookahead of the key-quoting
regex, src/app.py line 66.) -/
def lookaheadColon (cs : List Char) : Bool :=
  match cs.dropWhile wsChar with
  | c :: _ => c = ':'
  | [] => false

/-- One pass of `re.sub(r"(\w+)(?=\s*:)", r'"\1"', text)` (src/app.py
line 66), fuelled so that it is structurally recursive (the wrapper
`sub1` supplies enough fuel).  At a word character, the greedy `\w+`
takes the maximal word run; the lookahead can only succeed at the end of
that run (a word character is neither whitespace nor `:`), so on failure
the scan advances one position, exactly as `re.sub` does. -/
def sub1Go : Nat → List Char → List Char
  | 0, cs => cs
  | _ + 1, [] => []
  | f + 1, c :: cs =>
    if wordChar c then
      if lookaheadColon ((c :: cs).dropWhile wordChar) then
        '"' :: ((c :: cs).takeWhile wordChar ++ '"' :: sub1Go f ((c :: cs).dropWhile wordChar))
      else c :: sub1Go f cs
    else c :: sub1Go f cs

/-- The key-quoting substitution (src/app.py line 66). -/
def sub1 (cs : List Char) : List Char := sub1Go cs.length cs

/-- Split a text at its first occurrence of the character `q`: the part
before it and the part after it. -/
def breakAtChar (q : Char) : List Char → Option (List Char × List Char)
  | [] => none
  | c :: cs =>
    if c = q then some ([], cs)
    else
      match breakAtChar q cs with
      | some p => some (c :: p.1, p.2)
      | none => none

/-- One pass of `re.sub(r"'([^']*)'", r'"\1"', text)` (src/app.py line
68), fuelled.  The leftmost match starts at the first `'` and its greedy
`[^']*` runs to the next `'`; an unpaired final quote matches nothing. -/
def sub2Go : Nat → List Char → List Char
  | 0, cs => cs
  | _ + 1, [] => []
  | f + 1, c :: cs =>
    if c = '\'' then
      match breakAtChar '\'' cs with
      | some p => '"' :: (p.1 ++ '"' :: sub2Go f p.2)
      | none => c :: sub2Go f cs
    else c :: sub2Go f cs

/-- The quote-replacing substitution (src/app.py line 68). -/
def sub2 (cs : List Char) : List Char := sub2Go cs.length cs

/-- The whole textual repair (src/app.py lines 63-68): quote bare keys,
then replace single-quoted strings by double-quoted ones. -/
def repair (cs : List Char) : List Char := sub2 (sub1 cs)

/-- Match a literal token at the start of the text, returning the rest. -/
def stripLit : List Char → List Char → Option (List Char)
  | [], cs => some cs
  | _ :: _, [] => none
  | l :: ls, c :: cs => if c = l then stripLit ls cs else none

/-- `\s+` followed by a non-whitespace literal: at least one whitespace
character, then the maximal whitespace run (greedy, and deterministic
because what follows in the pattern is not whitespace). -/
def stripWs1 : List Char → Option (List Char)
  | [] => none
  | c :: cs => if wsChar c then some (cs.dropWhile wsChar) else none

/-- The lazy `.*?\];` tail of the capture (with `re.DOTALL`, `.` matches
every character): the text before the first `]` that is immediately
followed by `;`. -/
def upToBracketSemi : List Char → Option (List Char)
  | [] => none
  | c :: cs =>
    if c = ']' then
      match cs with
      | ';' :: _ => some []
      | _ => (upToBracketSemi cs).map (c :: ·)
    else (upToBracketSemi cs).map (c :: ·)

/-- Try to match `const\s+bicycleDataRaw\s*=\s*(\[.*?\]);` at the start
of the text (src/app.py lines 55-57), returning the captured group
(brackets included). -/
def matchAssign (cs : List Char) : Option (List Char) :=
  (stripLit "const".data cs).bind fun cs1 =>
  (stripWs1 cs1).bind fun cs2 =>
  (stripLit "bicycleDataRaw".data cs2).bind fun cs3 =>
  (stripLit ['='] (cs3.dropWhile wsChar)).bind fun cs5 =>
  (stripLit ['['] (cs5.dropWhile wsChar)).bind fun cs7 =>
  (upToBracketSemi cs7).map fun inner => '[' :: (inner ++ [']'])

/-- `re.search` for the assignment pattern: the leftmost position where
it matches, returning the captured array literal. -/
def findArrayLiteral : List Char → Option (List Char)
  | [] => none
  | c :: cs =>
    match matchAssign (c :: cs) with
    | some cap => some cap
    | none => findArrayLiteral cs

/-- Parsed JSON values (`json.loads`, src/app.py line 70). -/
inductive Json where
  | null
  | bool (b : Bool)
  | num (q : ℚ)
  | str (s : String)
  | arr (elems : List Json)
  | obj (fields : List (String × Json))

/-- JSON whitespace (the four characters strict JSON allows between
tokens). -/
def jsonWs (c : Char) : Bool :=
  c = ' ' || c = '\t' || c = '\n' || c = '\r'

/-- Scan a JSON string body after the opening `"`: plain characters up
to the closing quote, with the common escapes.  Control characters are
rejected (strict mode) and `\uXXXX` escapes are not modelled (none occur
in this dataset). -/
def parseStringBody : List Char → Option (List Char × List Char)
  | [] => none
  | c :: cs =>
    if c = '"' then some ([], cs)
    else if c = '\\' then
      match cs with
      | [] => none
      | e :: cs2 =>
        let esc : Option Char :=
          if e = '"' then some '"'
          else if e = '\\' then some '\\'
          else if e = '/' then some '/'
          else if e = 'n' then some '\n'
          else if e = 't' then some '\t'
          else if e = 'r' then some '\r'
          else if e = 'b' then some '\x08'
          else if e = 'f' then some '\x0c'
          else none
        match esc with
        | none => none
        | some ec =>
          match parseStringBody cs2 with
          | some p => some (ec :: p.1, p.2)
          | none => none
    else if c.toNat < 32 then none
    else
      match parseStringBody cs with
      | some p => some (c :: p.1, p.2)
      | none => none

/-- Parse a JSON number (`-?(0|[1-9][0-9]*)(\.[0-9]+)?([eE][+-]?[0-9]+)?`),
returning its exact rational value and the rest of the text. -/
def parseNumber (cs : List Char) : Option (ℚ × List Char) :=
  let signed : Int × List Char :=
    match cs with
    | '-' :: r => (-1, r)
    | r => (1, r)
  let ip := signed.2.takeWhile Char.isDigit
  let rest := signed.2.dropWhile Char.isDigit
  if ip.isEmpty then none
  else if 2 ≤ ip.length && ip.headD '0' = '0' then none
  else
    match rest with
    | '.' :: rest2 =>
      let fp := rest2.takeWhile Char.isDigit
      let rest3 := rest2.dropWhile Char.isDigit
      if fp.isEmpty then none
      else
        match rest3 with
        | e :: r2 =>
          if e = 'e' || e = 'E' then
            (jsonExponent r2).map fun p => (decValue signed.1 ip fp p.1, p.2)
          else some (decValue signed.1 ip fp 0, rest3)
        | [] => some (decValue signed.1 ip fp 0, [])
    | e :: r2 =>
      if e = 'e' || e = 'E' then
        (jsonExponent r2).map fun p => (decValue signed.1 ip [] p.1, p.2)
      else some (decValue signed.1 ip [] 0, rest)
    | [] => some (decValue signed.1 ip [] 0, [])
where
  /-- The signed digits of an exponent part, after `e`/`E`. -/
  jsonExponent (cs : List Char) : Option (Int × List Char) :=
    let esigned : Int × List Char :=
      match cs with
      | '+' :: r => (1, r)
      | '-' :: r => (-1, r)
      | r => (1, r)
    let ed := esigned.2.takeWhile Char.isDigit
    let rest := esigned.2.dropWhile Char.isDigit
    if ed.isEmpty then none else some (esigned.1 * (digitsToNat ed : Int), rest)

mutual

/-- Recursive-descent JSON value parser (strict, like `json.loads`),
fuelled for structural recursion; the wrapper `parseJson` supplies ample
fuel.  The grammar stages are split into named continuations so the
parser is compositional. -/
def parseValue : Nat → List Char → Option (Json × List Char)
  | 0, _ => none
  | f + 1, cs =>
    match cs.dropWhile jsonWs with
    | [] => none
    | c :: cs' =>
      if c = '[' then parseArrBody f (cs'.dropWhile jsonWs)
      else if c = '{' then parseObjBody f (cs'.dropWhile jsonWs)
      else if c = '"' then
        (parseStringBody cs').map fun p => (Json.str ⟨p.1⟩, p.2)
      else if c = 't' then
        (stripLit "rue".data cs').map fun rest => (Json.bool true, rest)
      else if c = 'f' then
        (stripLit "alse".data cs').map fun rest => (Json.bool false, rest)
      else if c = 'n' then
        (stripLit "ull".data cs').map fun rest => (Json.null, rest)
      else
        (parseNumber (c :: cs')).map fun p => (Json.num p.1, p.2)

/-- After `[` and whitespace: the empty array, or its element list. -/
def parseArrBody : Nat → List Char → Option (Json × List Char)
  | 0, _ => none
  | f + 1, inner =>
    match inner with
    | d :: ds =>
      if d = ']' then some (.arr [], ds)
      else (parseArrayElems f (d :: ds)).map fun p => (Json.arr p.1, p.2)
    | [] => (parseArrayElems f []).map fun p => (Json.arr p.1, p.2)

/-- After `{` and whitespace: the empty object, or its field list. -/
def parseObjBody : Nat → List Char → Option (Json × List Char)
  | 0, _ => none
  | f + 1, inner =>
    match inner with
    | d :: ds =>
      if d = '}' then some (.obj [], ds)
      else (parseObjFields f (d :: ds)).map fun p => (Json.obj p.1, p.2)
    | [] => (parseObjFields f []).map fun p => (Json.obj p.1, p.2)

/-- Parse the elements of a non-empty array, consuming the closing `]`. -/
def parseArrayElems : Nat → List Char → Option (List Json × List Char)
  | 0, _ => none
  | f + 1, cs => (parseValue f cs).bind (parseElemSep f)

/-- After one array element: a comma and more elements, or `]`. -/
def parseElemSep : Nat → Json × List Char → Option (List Json × List Char)
  | 0, _ => none
  | f + 1, vr =>
    match vr.2.dropWhile jsonWs with
    | e :: rest2 =>
      if e = ',' then (parseArrayElems f rest2).map fun p => (vr.1 :: p.1, p.2)
      else if e = ']' then some ([vr.1], rest2)
      else none
    | [] => none

/-- Parse the fields of a non-empty object, consuming the closing `}`. -/
def parseObjFields : Nat → List Char → Option (List (String × Json) × List Char)
  | 0, _ => none
  | f + 1, cs =>
    match cs.dropWhile jsonWs with
    | c :: cs1 =>
      if c = '"' then (parseStringBody cs1).bind (parseFieldTail f)
      else none
    | [] => none

/-- After an object key: a colon and the field's value. -/
def parseFieldTail : Nat → List Char × List Char →
    Option (List (String × Json) × List Char)
  | 0, _ => none
  | f + 1, kv =>
    match kv.2.dropWhile jsonWs with
    | d :: cs3 =>
      if d = ':' then (parseValue f cs3).bind (parseFieldSep f kv.1)
      else none
    | [] => none

/-- After one field's value: a comma and more fields, or `}`. -/
def parseFieldSep : Nat → List Char → Json × List Char →
    Option (List (String × Json) × List Char)
  | 0, _, _ => none
  | f + 1, k, vr =>
    match vr.2.dropWhile jsonWs with
    | e :: rest2 =>
      if e = ',' then (parseObjFields f rest2).map fun p => ((⟨k⟩, vr.1) :: p.1, p.2)
      else if e = '}' then some ([(⟨k⟩, vr.1)], rest2)
      else none
    | [] => none

end

/-- `json.loads` on a whole text: parse one value and require only
whitespace after it.  The fuel `2 * length + 2` is ample: every unit of
nesting or iteration consumes at least one character. -/
def parseJson (cs : List Char) : Option Json :=
  match parseValue (2 * cs.length + 2) cs with
  | some (v, rest) => if (rest.dropWhile jsonWs).isEmpty then some v else none
  | none => none

/-- The two extraction failures of `fetch_bicycle_data` (transport errors
of the network adapter are outside the extractor). -/
inductive ExtractErr where
  | markerNotFound
  | parseFailure
deriving DecidableEq

/-- The extraction pipeline of `fetch_bicycle_data` (src/app.py lines
54-72): locate and capture the array literal, repair it, parse it
strictly.  A missing marker raises `BicycleDataError("Could not find
bicycleDataRaw in JS response")`; a parse failure is caught as
`json.JSONDecodeError` and re-raised as `BicycleDataError("Failed to
parse JSON: ...")` with the underlying cause. -/
def extractRecords (raw : String) : Except ExtractErr Json :=
  match findArrayLiteral raw.data with
  | none => .error .markerNotFound
  | some cap =>
    match parseJson (repair cap) with
    | none => .error .parseFailure
    | some v => .ok v

/-- The contents of the `q`-quoted segments of a text, pairing the 1st
quote with the 2nd, the 3rd with the 4th, and so on (how both repair
regexes and a strict reader delimit string literals). -/
def quotedContentsGo (q : Char) : Nat → List Char → List (List Char)
  | 0, _ => []
  | f + 1, cs =>
    match breakAtChar q cs with
    | none => []
    | some p =>
      match breakAtChar q p.2 with
      | none => []
      | some p2 => p2.1 :: quotedContentsGo q f p2.2

/-- The quoted segments of a text (see `quotedContentsGo`). -/
def quotedContents (q : Char) (cs : List Char) : List (List Char) :=
  quotedContentsGo q cs.length cs

/-! ### The supported literal shape

The upstream dataset is an array of object literals with bare
identifier keys and values that are decimal integers or single-quoted
strings.  The following grammar describes such literals; the extraction
claims are settled over it. -/

/-- A value of the supported literal shape: a decimal integer (its digit
characters) or a single-quoted string (its content characters). -/
inductive GLit where
  | num (ds : List Char)
  | str (s : List Char)
deriving DecidableEq

/-- One object literal of the supported shape: its key/value pairs in
source order. -/
def GObj : Type := List (List Char × GLit)

instance : DecidableEq GObj := by unfold GObj; infer_instance

/-- A character allowed inside a single-quoted string value: printable,
and none of the characters that the capture, the repair regexes or the
strict parse treat specially — quotes and backslash (string structure),
`:` (which would let the key-quoting regex fire inside the string) and
`]` (which would end the lazy capture early). -/
def safeStrChar (c : Char) : Bool :=
  32 ≤ c.toNat && !(c = '\'' || c = '"' || c = '\\' || c = ':' || c = ']')

/-- Well-formed value: a nonempty digit run without a forbidden leading
zero, or a string of safe characters. -/
def wfLit : GLit → Bool
  | .num ds => !ds.isEmpty && ds.all Char.isDigit &&
      (ds.length == 1 || !(ds.headD '0' == '0'))
  | .str s => s.all safeStrChar

/-- Well-formed field: a nonempty identifier key and a well-formed value. -/
def wfField (f : List Char × GLit) : Bool :=
  !f.1.isEmpty && f.1.all wordChar && wfLit f.2

/-- Well-formed object: every field well-formed. -/
def wfObj (o : GObj) : Bool := o.all wfField

/-- Well-formed array: every object well-formed. -/
def wfObjs (objs : List GObj) : Bool := objs.all wfObj

/-- Render a value as it appears in the upstream JavaScript source. -/
def renderLit : GLit → List Char
  | .num ds => ds
  | .str s => '\'' :: (s ++ ['\''])

/-- Render a field: `key: value`. -/
def renderField (f : List Char × GLit) : List Char :=
  f.1 ++ ':' :: ' ' :: renderLit f.2

/-- Render a field list, comma-separated. -/
def renderFields : List (List Char × GLit) → List Char
  | [] => []
  | [f] => renderField f
  | f :: f2 :: fs => renderField f ++ ',' :: ' ' :: renderFields (f2 :: fs)

/-- Render an object: `{fields}`. -/
def renderObj (o : GObj) : List Char :=
  '{' :: (renderFields o ++ ['}'])

/-- Render an object list, comma-separated. -/
def renderObjs : List GObj → List Char
  | [] => []
  | [o] => renderObj o
  | o :: o2 :: os => renderObj o ++ ',' :: ' ' :: renderObjs (o2 :: os)

/-- Render the whole array literal: `[objects]`. -/
def renderArr (objs : List GObj) : List Char :=
  '[' :: (renderObjs objs ++ [']'])

/-- The same renders after the key-quoting substitution: keys wrapped in
double quotes, values untouched. -/
def renderFieldK (f : List Char × GLit) : List Char :=
  '"' :: (f.1 ++ '"' :: ':' :: ' ' :: renderLit f.2)

/-- Key-quoted field list. -/
def renderFieldsK : List (List Char × GLit) → List Char
  | [] => []
  | [f] => renderFieldK f
  | f :: f2 :: fs => renderFieldK f ++ ',' :: ' ' :: renderFieldsK (f2 :: fs)

/-- Key-quoted object. -/
def renderObjK (o : GObj) : List Char :=
  '{' :: (renderFieldsK o ++ ['}'])

/-- Key-quoted object list. -/
def renderObjsK : List GObj → List Char
  | [] => []
  | [o] => renderObjK o
  | o :: o2 :: os => renderObjK o ++ ',' :: ' ' :: renderObjsK (o2 :: os)

/-- Key-quoted array literal. -/
def renderArrK (objs : List GObj) : List Char :=
  '[' :: (renderObjsK objs ++ [']'])

/-- The renders after both substitutions (strict JSON): keys quoted and
single-quoted strings replaced by double-quoted ones with the same
content. -/
def renderLitJ : GLit → List Char
  | .num ds => ds
  | .str s => '"' :: (s ++ ['"'])

/-- JSON field. -/
def renderFieldJ (f : List Char × GLit) : List Char :=
  '"' :: (f.1 ++ '"' :: ':' :: ' ' :: renderLitJ f.2)

/-- JSON field list. -/
def renderFieldsJ : List (List Char × GLit) → List Char
  | [] => []
  | [f] => renderFieldJ f
  | f :: f2 :: fs => renderFieldJ f ++ ',' :: ' ' :: renderFieldsJ (f2 :: fs)

/-- JSON object. -/
def renderObjJ (o : GObj) : List Char :=
  '{' :: (renderFieldsJ o ++ ['}'])

/-- JSON object list. -/
def renderObjsJ : List GObj → List Char
  | [] => []
  | [o] => renderObjJ o
  | o :: o2 :: os => renderObjJ o ++ ',' :: ' ' :: renderObjsJ (o2 :: os)

/-- JSON array literal. -/
def renderArrJ (objs : List GObj) : List Char :=
  '[' :: (renderObjsJ objs ++ [']'])

/-- The parsed value of a supported-shape literal value. -/
def litToJson : GLit → Json
  | .num ds => .num (decValue 1 ds [] 0)
  | .str s => .str ⟨s⟩

/-- The parsed field of a supported-shape field. -/
def fieldToJson (f : List Char × GLit) : String × Json :=
  (⟨f.1⟩, litToJson f.2)

/-- The parsed record of a supported-shape object literal. -/
def objToJson (o : GObj) : Json :=
  .obj (o.map fieldToJson)

/-- A raw source text carrying a supported-shape dataset: the assignment
to `bicycleDataRaw` followed by arbitrary trailing text. -/
def mkRaw (objs : List GObj) (suffix : List Char) : String :=
  ⟨"const bicycleDataRaw = ".data ++ (renderArr objs ++ ';' :: suffix)⟩

/-- The string-value contents of a supported-shape array, in source
order. -/
def strContents (objs : List GObj) : List (List Char) :=
  objs.flatMap fun o =>
    o.filterMap fun f =>
      match f.2 with
      | .str s => some s
      | .num _ => none

/-- The keys and string contents of a supported-shape array, in source
order (what ends up double-quoted after the repair). -/
def keysAndContents (objs : List GObj) : List (List Char) :=
  objs.flatMap fun o =>
    o.flatMap fun f =>
      match f.2 with
      | .str s => [f.1, s]
      | .num _ => [f.1]

/-- Fuel needed by the JSON parser on a rendered supported-shape array. -/
def szObjs : List GObj → Nat
  | [] => 0
  | o :: rest => 3 * o.length + 6 + szObjs rest

instance : DecidableEq (Except String (List Record)) := fun
  | .ok a, .ok b =>
    if h : a = b then .isTrue (by rw [h]) else .isFalse (by simp [h])
  | .error a, .error b =>
    if h : a = b then .isTrue (by rw [h]) else .isFalse (by simp [h])
  | .ok _, .error _ => .isFalse (by simp)
  | .error _, .ok _ => .isFalse (by simp)

end BikeHelmet

section Scratch

open BikeHelmet

example : pyFloat? "150" = some 150 := by decide

example : pyFloat? "$50" = none := by decide

example : pyFloat? "12.5" = some (Rat.divInt 25 2) := by decide

example : pyFloat? " -3e2 " = some (-300) := by decide

example : coerceCost (.str "1$50") = some 150 := by decide

example : filterBicycleData [[("cost", .str "$300")], [("cost", .str "$50")]]
    [("cost", .num 100)] = .ok [[("cost", .str "$50")]] := by decide

example : filterBicycleData [[("score", .str "abc")]] [] = .error "Failed to filter data" := by
  decide

example : filterBicycleData [[("score", .num 20)], [("score", .num 5)], [("score", .num 5)]]
    [] = .ok [[("score", .num 5)], [("score", .num 5)], [("score", .num 20)]] := by
  decide

example : extractRecords ("const bicycleDataRaw = [\x7bbrand: 'Giro', model: 'Syntax', cost: '$150', score: 12, style: 'Road'\x7d];") =
    .ok (.arr [.obj [("brand", .str "Giro"), ("model", .str "Syntax"), ("cost", .str "$150"),
      ("score", .num 12), ("style", .str "Road")]]) := rfl

example : extractRecords ("const bicycleDataRaw = [\x7ba: 'x];y'\x7d];") = .error .parseFailure := rfl

example : extractRecords "var otherThing = [1,2];" = .error .markerNotFound := rfl

example : extractRecords "const bicycleDataRaw = [];" = .ok (.arr []) := rfl

example : repair ("[\x7ba: 'x:y'\x7d]").data = ("[\x7b\"a\": \"\"x\":y\"\x7d]").data := rfl

example : quotedContents '\'' ("[\x7ba: 'x:y'\x7d]").data = [("x:y").data] := rfl

example : quotedContents '"' (repair ("[\x7ba: 'x:y'\x7d]").data) = [("a").data, [], (":y").data] := rfl

example : extractRecords ("const bicycleDataRaw = [\x7ba: 'x:y'\x7d];") = .error .parseFailure := rfl

example :
    repair (renderArr [[("brand".data, GLit.str "Giro".data), ("score".data, GLit.num "12".data)]]) =
      renderArrJ [[("brand".data, GLit.str "Giro".data), ("score".data, GLit.num "12".data)]] := rfl

example :
    extractRecords (mkRaw [[("brand".data, GLit.str "Giro".data), ("score".data, GLit.num "12".data)],
        [("cost".data, GLit.str "$99".data)]] " tail".data) =
      .ok (.arr [.obj [("brand", .str "Giro"), ("score", .num 12)], .obj [("cost", .str "$99")]]) := by
  rfl

example : wfObjs [[("brand".data, GLit.str "Giro".data), ("score".data, GLit.num "12".data)]] = true := by
  decide

end Scratch

namespace BikeHelmet

/-! ### Theorems for the filter evaluator claims -/

/-- Any two booleans agreeing as propositions are equal. -/
theorem bool_eq_of_iff : ∀ (a b : Bool), (a = true ↔ b = true) → a = b := by decide

/-- An empty filter specification accepts every record. -/
theorem itemMatchesFilters_nil (r : Record) : itemMatchesFilters r [] = true := rfl

/-- A record without a `score` field gets the infinite sort key. -/
theorem sortKey_of_no_score (r : Record) (h : r.lookup "score" = none) :
    sortKey r = some ⊤ := by
  unfold sortKey
  rw [h]

/-- Unfolding of `filterBicycleData` on nonempty data whose surviving
records all have computable sort keys. -/
theorem filterBicycleData_ok (data : List Record) (spec : FilterSpec)
    (hd : data.isEmpty = false)
    (hall : (data.filter (fun r => itemMatchesFilters r spec)).all
      (fun r => (sortKey r).isSome) = true) :
    filterBicycleData data spec =
      .ok ((data.filter (fun r => itemMatchesFilters r spec)).insertionSort recLE) := by
  unfold filterBicycleData
  rw [hd]
  simp only [Bool.false_eq_true, if_false, hall, if_true]

/-- C1 counterexample: the claim "the filter operation never raises an
error for a well-typed FilterSpec" is false at a concrete input: with the
(well-typed) empty specification and one record whose `score` is the
non-numeric string `"abc"`, the sort key `float(...)` raises and
`filter_bicycle_data` raises `BicycleDataError`. -/
theorem claim1_counterexample_nonnumeric_score_raises :
    filterBicycleData [[("score", Value.str "abc")]] [] =
      .error "Failed to filter data" := by decide

/-- C1 (amended): the filter operation returns normally provided every
record that survives the filters has a computable sort key (a numeric or
absent `score`); threshold-coercion failures stay record-local — the
result is exactly the matching records (up to the sort's reordering), so
a record rejected by a failed coercion never aborts the batch. -/
theorem claim1_filter_total_on_coercible_scores
    (data : List Record) (spec : FilterSpec)
    (h : ∀ r ∈ data, itemMatchesFilters r spec = true → (sortKey r).isSome = true) :
    ∃ l, filterBicycleData data spec = .ok l ∧
      l.Perm (data.filter (fun r => itemMatchesFilters r spec)) := by
  by_cases hd : data.isEmpty
  · rw [List.isEmpty_iff] at hd
    subst hd
    exact ⟨[], rfl, by simp⟩
  · have hall : (data.filter (fun r => itemMatchesFilters r spec)).all
        (fun r => (sortKey r).isSome) = true := by
      rw [List.all_eq_true]
      intro r hr
      rw [List.mem_filter] at hr
      exact h r hr.1 hr.2
    rw [filterBicycleData_ok data spec (Bool.eq_false_iff.mpr hd) hall]
    exact ⟨_, rfl, List.perm_insertionSort recLE _⟩

/-- C1 witness: a record with an uncoercible `cost` is merely excluded
while the rest of the batch is returned. -/
theorem claim1_witness :
    ∃ l, filterBicycleData [[("cost", Value.str "$oops")], [("cost", Value.str "$50")]]
        [("cost", Value.num 100)] = .ok l ∧
      l.Perm ([[("cost", Value.str "$oops")], [("cost", Value.str "$50")]].filter
        (fun r => itemMatchesFilters r [("cost", Value.num 100)])) :=
  claim1_filter_total_on_coercible_scores _ _ (by decide)

/-- C4 counterexample: the claim "filtering with an empty FilterSpec
returns all records, sorted" fails for a record sequence containing a
non-numeric `score`: the operation errors instead of returning the
records. -/
theorem claim4_counterexample_nonnumeric_score :
    filterBicycleData [[("score", Value.str "n/a")], [("brand", Value.str "Bell")]] [] =
      .error "Failed to filter data" := by decide

/-- C4 (amended): for every record sequence whose present `score` values
are numerically coercible, filtering with the empty FilterSpec returns
all the records, sorted ascending by numeric score, and a record missing
`score` compares above every record (its key is positive infinity, so it
sorts last). -/
theorem claim4_empty_spec_returns_all_sorted (data : List Record)
    (h : ∀ r ∈ data, (sortKey r).isSome = true) :
    ∃ l, filterBicycleData data [] = .ok l ∧ l.Perm data ∧ l.Sorted recLE ∧
      ∀ r ∈ data, r.lookup "score" = none → ∀ r' ∈ data, recLE r' r := by
  have hfilter : data.filter (fun r => itemMatchesFilters r []) = data :=
    List.filter_eq_self.mpr fun a _ => rfl
  have hlast : ∀ r ∈ data, r.lookup "score" = none → ∀ r' ∈ data, recLE r' r := by
    intro r _ hr r' _
    unfold recLE keyD
    rw [sortKey_of_no_score r hr]
    exact le_top
  by_cases hd : data.isEmpty
  · rw [List.isEmpty_iff] at hd
    subst hd
    exact ⟨[], rfl, by simp, List.sorted_nil, by simp⟩
  · have hall : (data.filter (fun r => itemMatchesFilters r [])).all
        (fun r => (sortKey r).isSome) = true := by
      rw [hfilter, List.all_eq_true]
      exact h
    rw [filterBicycleData_ok data [] (Bool.eq_false_iff.mpr hd) hall, hfilter]
    exact ⟨_, rfl, List.perm_insertionSort recLE data,
      List.sorted_insertionSort recLE data, hlast⟩

/-- C4 witness: records with numeric scores and one scoreless record:
the filter succeeds, returns a sorted permutation, and the scoreless
record bounds every other from above. -/
theorem claim4_witness :
    ∃ l, filterBicycleData
        [[("score", Value.num 20)], [("brand", Value.str "X")], [("score", Value.num 5)]]
        [] = .ok l ∧
      l.Perm [[("score", Value.num 20)], [("brand", Value.str "X")], [("score", Value.num 5)]] ∧
      l.Sorted recLE ∧
      ∀ r ∈ [[("score", Value.num 20)], [("brand", Value.str "X")],
          [("score", Value.num 5)]], r.lookup "score" = none →
        ∀ r' ∈ [[("score", Value.num 20)], [("brand", Value.str "X")],
          [("score", Value.num 5)]], recLE r' r :=
  claim4_empty_spec_returns_all_sorted _ (by decide)

/-- C5: with spec `{cost: X}`, a record is included iff it has a `cost`
field whose value coerces (all dollar signs stripped) to a number `≤ X`;
a value that is non-numeric after stripping, or exceeds the bound, or a
missing field, excludes the record.  In particular
`[{cost:"$300"},{cost:"$50"}]` with `{cost:100}` yields `[{cost:"$50"}]`. -/
theorem claim5_cost_threshold_inclusion :
    (∀ (r : Record) (X : ℚ),
      itemMatchesFilters r [("cost", Value.num X)] = true ↔
        ∃ v, r.lookup "cost" = some v ∧ ∃ q, coerceCost v = some q ∧ q ≤ X) ∧
    filterBicycleData [[("cost", Value.str "$300")], [("cost", Value.str "$50")]]
      [("cost", Value.num 100)] = .ok [[("cost", Value.str "$50")]] := by
  constructor
  · intro r X
    simp only [itemMatchesFilters, List.all_cons, List.all_nil, Bool.and_true]
    cases hl : r.lookup "cost" with
    | none => simp [hl]
    | some v =>
      have hmem : "cost" ∈ maxThresholdFields := by decide
      simp only [hl, if_pos hmem]
      unfold checkThresholdFilter
      rw [if_pos (rfl : ("cost" : String) = "cost"),
        show coerceNum (Value.num X) = some X from rfl]
      cases hc : coerceCost v with
      | none => simp [hc]
      | some q =>
        simp only [decide_eq_true_eq]
        constructor
        · intro hq
          exact ⟨v, rfl, q, hc, hq⟩
        · rintro ⟨v', hv', q', hq', hle⟩
          rw [Option.some_inj] at hv'
          subst hv'
          rw [hc, Option.some_inj] at hq'
          subst hq'
          exact hle
  · decide

/-- C5 witness: the general part applied at the record `{cost:"$150"}`
and bound `200`, together with a concrete evaluation discharging the
existential. -/
theorem claim5_witness :
    itemMatchesFilters [("cost", Value.str "$150")] [("cost", Value.num 200)] = true :=
  (claim5_cost_threshold_inclusion.1 [("cost", Value.str "$150")] 200).mpr
    ⟨Value.str "$150", rfl, 150, by decide, by norm_num⟩

/-- C6: the post-filter sort is stable — for any run of the filter that
returns `ok l`, the records of `l` carrying any fixed sort key are
exactly the matching records of the input with that key, in input order;
in particular `[{score:20},{score:5},{score:5}]` with the empty spec
sorts to `[{score:5},{score:5},{score:20}]`. -/
theorem claim6_sort_is_stable :
    (∀ (data : List Record) (spec : FilterSpec) (l : List Record),
      filterBicycleData data spec = .ok l → ∀ k : WithTop ℚ,
        l.filter (fun r => decide (keyD r = k)) =
          (data.filter (fun r => itemMatchesFilters r spec)).filter
            (fun r => decide (keyD r = k))) ∧
    filterBicycleData [[("score", Value.num 20)], [("score", Value.num 5)],
        [("score", Value.num 5)]] [] =
      .ok [[("score", Value.num 5)], [("score", Value.num 5)], [("score", Value.num 20)]] := by
  constructor
  · intro data spec l hok k
    by_cases hd : data.isEmpty
    · rw [List.isEmpty_iff] at hd
      subst hd
      rw [show filterBicycleData [] spec = Except.ok [] from rfl] at hok
      cases hok
      simp
    · unfold filterBicycleData at hok
      rw [Bool.eq_false_iff.mpr hd] at hok
      simp only [Bool.false_eq_true, if_false] at hok
      set F := data.filter (fun r => itemMatchesFilters r spec) with hF
      by_cases hall : F.all (fun r => (sortKey r).isSome) = true
      · rw [if_pos hall] at hok
        cases hok
        set p : Record → Bool := fun r => decide (keyD r = k) with hp
        have hperm : ((F.insertionSort recLE).filter p).Perm (F.filter p) :=
          List.Perm.filter p (List.perm_insertionSort recLE F)
        have hpair : (F.filter p).Pairwise recLE := by
          apply List.pairwise_of_forall_mem_list
          intro a ha b hb
          rw [List.mem_filter] at ha hb
          have hka : keyD a = k := by
            have h2 := ha.2
            rw [hp] at h2
            exact of_decide_eq_true h2
          have hkb : keyD b = k := by
            have h2 := hb.2
            rw [hp] at h2
            exact of_decide_eq_true h2
          unfold recLE
          rw [hka, hkb]
        have hsub : List.Sublist (F.filter p) (F.insertionSort recLE) :=
          List.sublist_insertionSort hpair (List.filter_sublist F)
        have hsub2 : List.Sublist (F.filter p) ((F.insertionSort recLE).filter p) := by
          have h2 := List.Sublist.filter p hsub
          rwa [List.filter_filter, show (fun a => p a && p a) = p by
            funext a; cases hpa : p a <;> simp [hpa]] at h2
        exact (hsub2.eq_of_length (hperm.length_eq.symm)).symm
      · rw [if_neg hall] at hok
        cases hok
  · decide

/-- C6 witness: the stability equation applied to the concrete run of
scenario 2, at key `5`. -/
theorem claim6_witness :
    ([[("score", Value.num 5)], [("score", Value.num 5)],
        [("score", Value.num 20)]] : List Record).filter
      (fun r => decide (keyD r = ((5 : ℚ) : WithTop ℚ))) =
      (([[("score", Value.num 20)], [("score", Value.num 5)],
          [("score", Value.num 5)]] : List Record).filter
        (fun r => itemMatchesFilters r [])).filter
        (fun r => decide (keyD r = ((5 : ℚ) : WithTop ℚ))) :=
  claim6_sort_is_stable.1 _ [] _ claim6_sort_is_stable.2 _

/-- C7: for a non-threshold field, the per-field acceptance is exactly
case-insensitive equality of the text forms of the record's value and
the requested value (with the field required to be present). -/
theorem claim7_exact_match_case_insensitive
    (r : Record) (f : String) (v : Value) (hf : f ∉ maxThresholdFields) :
    itemMatchesFilters r [(f, v)] = true ↔
      ∃ rv, r.lookup f = some rv ∧ pyLower (pyStr rv) = pyLower (pyStr v) := by
  simp only [itemMatchesFilters, List.all_cons, List.all_nil, Bool.and_true]
  cases hl : r.lookup f with
  | none => simp [hl]
  | some rv =>
    simp only [hl, if_neg hf, beq_iff_eq, Option.some_inj]
    constructor
    · intro h
      exact ⟨rv, rfl, h⟩
    · rintro ⟨rv', hrv', h⟩
      subst hrv'
      exact h

/-- C7 witness: scenario 4 — the record `{brand:"Bell"}` is accepted by
the spec `{brand:"bell"}` (case-insensitive match). -/
theorem claim7_witness :
    itemMatchesFilters [("brand", Value.str "Bell")] [("brand", Value.str "bell")] = true :=
  (claim7_exact_match_case_insensitive [("brand", Value.str "Bell")] "brand"
    (Value.str "bell") (by decide)).mpr ⟨Value.str "Bell", rfl, by decide⟩

/-- C9: the filter specification is evaluated as a pure conjunction, so
reordering its entries changes neither any per-record decision nor the
filtered, sorted result. -/
theorem claim9_spec_order_irrelevant (data : List Record) (p1 p2 : FilterSpec)
    (h : p1.Perm p2) :
    (∀ r : Record, itemMatchesFilters r p1 = itemMatchesFilters r p2) ∧
      filterBicycleData data p1 = filterBicycleData data p2 := by
  have hmatch : ∀ r : Record, itemMatchesFilters r p1 = itemMatchesFilters r p2 := by
    intro r
    apply bool_eq_of_iff
    unfold itemMatchesFilters
    rw [List.all_eq_true, List.all_eq_true]
    constructor
    · intro H x hx
      exact H x (h.mem_iff.mpr hx)
    · intro H x hx
      exact H x (h.mem_iff.mp hx)
  refine ⟨hmatch, ?_⟩
  have hfilter : data.filter (fun r => itemMatchesFilters r p1) =
      data.filter (fun r => itemMatchesFilters r p2) :=
    List.filter_congr fun x _ => hmatch x
  unfold filterBicycleData
  rw [hfilter]

/-- C9 witness: swapping the two entries of a concrete specification
leaves the result unchanged. -/
theorem claim9_witness :
    filterBicycleData [[("brand", Value.str "Bell"), ("cost", Value.str "$80")]]
        [("brand", Value.str "bell"), ("cost", Value.num 100)] =
      filterBicycleData [[("brand", Value.str "Bell"), ("cost", Value.str "$80")]]
        [("cost", Value.num 100), ("brand", Value.str "bell")] :=
  (claim9_spec_order_irrelevant _ _ _ (by decide)).2

/-! ### Character-class facts and scanning helpers for the extractor -/

/-- Characters with distinct code points are distinct. -/
theorem char_ne_of_toNat_ne {c d : Char} (h : c.toNat ≠ d.toNat) : c ≠ d :=
  fun he => h (he ▸ rfl)

/-- Unsigned 32-bit `≤` transfers to the natural values. -/
theorem uint32_le_toNat {a b : UInt32} (h : a ≤ b) : a.toNat ≤ b.toNat := by
  rw [UInt32.le_def, BitVec.le_def] at h
  exact h

/-- The code-point ranges of `\w` characters. -/
theorem wordChar_toNat {c : Char} (h : wordChar c = true) :
    (48 ≤ c.toNat ∧ c.toNat ≤ 57) ∨ (65 ≤ c.toNat ∧ c.toNat ≤ 90) ∨
    (97 ≤ c.toNat ∧ c.toNat ≤ 122) ∨ c.toNat = 95 := by
  unfold wordChar Char.isAlpha Char.isUpper Char.isLower Char.isDigit at h
  simp only [Bool.or_eq_true, Bool.and_eq_true, decide_eq_true_eq] at h
  rcases h with ((⟨h1, h2⟩ | ⟨h1, h2⟩) | ⟨h1, h2⟩) | h
  · exact Or.inr (Or.inl ⟨uint32_le_toNat h1, uint32_le_toNat h2⟩)
  · exact Or.inr (Or.inr (Or.inl ⟨uint32_le_toNat h1, uint32_le_toNat h2⟩))
  · exact Or.inl ⟨uint32_le_toNat h1, uint32_le_toNat h2⟩
  · subst h
    exact Or.inr (Or.inr (Or.inr rfl))

/-- The code-point range of a digit character. -/
theorem isDigit_toNat {c : Char} (h : c.isDigit = true) :
    48 ≤ c.toNat ∧ c.toNat ≤ 57 := by
  unfold Char.isDigit at h
  simp only [Bool.and_eq_true, decide_eq_true_eq] at h
  exact ⟨uint32_le_toNat h.1, uint32_le_toNat h.2⟩

/-- A word character is not whitespace, not a JSON delimiter and not a
quote or escape character. -/
theorem wordChar_facts {c : Char} (h : wordChar c = true) :
    wsChar c = false ∧ jsonWs c = false ∧ c ≠ ':' ∧ c ≠ '\'' ∧ c ≠ '"' ∧
      c ≠ '\\' ∧ c ≠ ']' ∧ c ≠ ',' ∧ c ≠ '}' ∧ c ≠ ';' ∧ 32 ≤ c.toNat := by
  have ht := wordChar_toNat h
  have hne : ∀ n : Nat, c.toNat ≠ n → ∀ d : Char, d.toNat = n → c ≠ d := by
    intro n hn d hd
    exact char_ne_of_toNat_ne (by omega)
  have h32 : c ≠ ' ' := hne 32 (by omega) ' ' rfl
  have h9 : c ≠ '\t' := hne 9 (by omega) '\t' rfl
  have h10 : c ≠ '\n' := hne 10 (by omega) '\n' rfl
  have h13 : c ≠ '\r' := hne 13 (by omega) '\r' rfl
  have h12 : c ≠ '\x0c' := hne 12 (by omega) '\x0c' rfl
  have h11 : c ≠ '\x0b' := hne 11 (by omega) '\x0b' rfl
  refine ⟨?_, ?_, hne 58 (by omega) ':' rfl, hne 39 (by omega) '\'' rfl,
    hne 34 (by omega) '"' rfl, hne 92 (by omega) '\\' rfl, hne 93 (by omega) ']' rfl,
    hne 44 (by omega) ',' rfl, hne 125 (by omega) '}' rfl, hne 59 (by omega) ';' rfl,
    by omega⟩
  · unfold wsChar
    simp [h32, h9, h10, h13, h12, h11]
  · unfold jsonWs
    simp [h32, h9, h10, h13]

/-- A digit is a word character. -/
theorem wordChar_of_isDigit {c : Char} (h : c.isDigit = true) : wordChar c = true := by
  unfold wordChar
  rw [h]
  simp

/-- What a safe string character is not. -/
theorem safeStrChar_facts {c : Char} (h : safeStrChar c = true) :
    c ≠ '\'' ∧ c ≠ '"' ∧ c ≠ '\\' ∧ c ≠ ':' ∧ c ≠ ']' ∧ 32 ≤ c.toNat := by
  unfold safeStrChar at h
  simp only [Bool.and_eq_true, Bool.not_eq_true', Bool.or_eq_false_iff,
    decide_eq_false_iff_not, decide_eq_true_eq] at h
  refine ⟨?_, ?_, ?_, ?_, ?_, ?_⟩ <;> tauto

/-- `takeWhile` over an append stopping at the first appended element. -/
theorem takeWhile_append_stop {p : Char → Bool} (a : List Char) {c : Char}
    (t : List Char) (hc : p c = false) :
    (a ++ c :: t).takeWhile p = a.takeWhile p := by
  induction a with
  | nil => simp [List.takeWhile_cons, hc]
  | cons d a' ih =>
    simp only [List.cons_append, List.takeWhile_cons]
    cases hd : p d
    · rfl
    · rw [ih]

/-- `dropWhile` over an append stopping at the first appended element. -/
theorem dropWhile_append_stop {p : Char → Bool} (a : List Char) {c : Char}
    (t : List Char) (hc : p c = false) :
    (a ++ c :: t).dropWhile p = a.dropWhile p ++ c :: t := by
  induction a with
  | nil => simp [List.dropWhile_cons, hc]
  | cons d a' ih =>
    simp only [List.cons_append, List.dropWhile_cons]
    cases hd : p d
    · simp
    · simpa using ih

/-- `takeWhile` of an all-satisfying list. -/
theorem takeWhile_of_all {p : Char → Bool} {a : List Char}
    (h : ∀ x ∈ a, p x = true) : a.takeWhile p = a := by
  induction a with
  | nil => rfl
  | cons d a' ih =>
    simp [List.takeWhile_cons, h d (by simp), ih fun x hx => h x (by simp [hx])]

/-- `dropWhile` of an all-satisfying list. -/
theorem dropWhile_of_all {p : Char → Bool} {a : List Char}
    (h : ∀ x ∈ a, p x = true) : a.dropWhile p = [] := by
  induction a with
  | nil => rfl
  | cons d a' ih =>
    rw [List.dropWhile_cons, h d (by simp)]
    exact ih fun x hx => h x (by simp [hx])

/-- A full word run followed by a stopper: `takeWhile` takes the run. -/
theorem takeWhile_run {p : Char → Bool} {w : List Char} {c : Char}
    (t : List Char) (hw : ∀ x ∈ w, p x = true) (hc : p c = false) :
    (w ++ c :: t).takeWhile p = w := by
  rw [takeWhile_append_stop w t hc, takeWhile_of_all hw]

/-- A full word run followed by a stopper: `dropWhile` drops the run. -/
theorem dropWhile_run {p : Char → Bool} {w : List Char} {c : Char}
    (t : List Char) (hw : ∀ x ∈ w, p x = true) (hc : p c = false) :
    (w ++ c :: t).dropWhile p = c :: t := by
  rw [dropWhile_append_stop w t hc, dropWhile_of_all hw]
  rfl

/-! ### The key-quoting substitution on supported-shape renders -/

/-- The fuel of `sub1Go` is irrelevant once it covers the input length. -/
theorem sub1Go_congr : ∀ (f g : Nat) (cs : List Char), cs.length ≤ f → cs.length ≤ g →
    sub1Go f cs = sub1Go g cs := by
  intro f
  induction f with
  | zero =>
    intro g cs h1 _
    have h0 : cs = [] := List.eq_nil_of_length_eq_zero (Nat.le_zero.mp h1)
    subst h0
    cases g <;> rfl
  | succ f ih =>
    intro g cs h1 h2
    cases cs with
    | nil => cases g <;> rfl
    | cons c cs' =>
      cases g with
      | zero => simp at h2
      | succ g' =>
        simp only [List.length_cons, Nat.add_le_add_iff_right] at h1 h2
        simp only [sub1Go]
        cases hw : wordChar c with
        | true =>
          have hrest : ((c :: cs').dropWhile wordChar).length ≤ cs'.length := by
            rw [List.dropWhile_cons_of_pos hw]
            exact (List.dropWhile_sublist wordChar).length_le
          cases hl : lookaheadColon ((c :: cs').dropWhile wordChar) with
          | true =>
            show '"' :: (List.takeWhile wordChar (c :: cs') ++
                '"' :: sub1Go f (List.dropWhile wordChar (c :: cs'))) =
              '"' :: (List.takeWhile wordChar (c :: cs') ++
                '"' :: sub1Go g' (List.dropWhile wordChar (c :: cs')))
            rw [ih g' _ (le_trans hrest h1) (le_trans hrest h2)]
          | false =>
            show c :: sub1Go f cs' = c :: sub1Go g' cs'
            rw [ih g' cs' h1 h2]
        | false =>
          show c :: sub1Go f cs' = c :: sub1Go g' cs'
          rw [ih g' cs' h1 h2]

/-- `sub1` equals `sub1Go` at any sufficient fuel. -/
theorem sub1_eq_go (cs : List Char) (f : Nat) (h : cs.length ≤ f) :
    sub1 cs = sub1Go f cs :=
  sub1Go_congr cs.length f cs le_rfl h

/-- `sub1` step when the position does not start a match (not a word
character, or the lookahead fails). -/
theorem sub1_cons_step {c : Char} {cs : List Char}
    (h : wordChar c = false ∨ lookaheadColon ((c :: cs).dropWhile wordChar) = false) :
    sub1 (c :: cs) = c :: sub1 cs := by
  show sub1Go (c :: cs).length (c :: cs) = _
  simp only [List.length_cons, sub1Go]
  cases hw : wordChar c with
  | false => rfl
  | true =>
    have hl : lookaheadColon ((c :: cs).dropWhile wordChar) = false := by
      rcases h with h | h
      · rw [hw] at h
        cases h
      · exact h
    rw [hl]
    rfl

/-- `sub1` step when a key match fires: the maximal word run is wrapped
in double quotes and scanning resumes after it. -/
theorem sub1_cons_quote {c : Char} {cs : List Char} (hw : wordChar c = true)
    (hl : lookaheadColon ((c :: cs).dropWhile wordChar) = true) :
    sub1 (c :: cs) =
      '"' :: ((c :: cs).takeWhile wordChar ++ '"' :: sub1 ((c :: cs).dropWhile wordChar)) := by
  show sub1Go (c :: cs).length (c :: cs) = _
  simp only [List.length_cons, sub1Go]
  rw [hw, hl]
  show '"' :: (List.takeWhile wordChar (c :: cs) ++
      '"' :: sub1Go cs.length (List.dropWhile wordChar (c :: cs))) = _
  have hrest : ((c :: cs).dropWhile wordChar).length ≤ cs.length := by
    rw [List.dropWhile_cons_of_pos hw]
    exact (List.dropWhile_sublist wordChar).length_le
  rw [sub1Go_congr cs.length ((c :: cs).dropWhile wordChar).length _ hrest le_rfl]
  rfl

/-- The lookahead fails on text whose first non-whitespace character is
not a colon; `u` is colon-free and `b` is a non-whitespace non-colon
stopper. -/
theorem lookaheadColon_false (u : List Char) {b : Char} (t : List Char)
    (hu : ∀ x ∈ u, x ≠ ':') (hbws : wsChar b = false) (hb : b ≠ ':') :
    lookaheadColon (u ++ b :: t) = false := by
  unfold lookaheadColon
  rw [dropWhile_append_stop u t hbws]
  cases hcase : u.dropWhile wsChar with
  | nil =>
    rw [List.nil_append]
    exact decide_eq_false hb
  | cons d rest =>
    rw [List.cons_append]
    refine decide_eq_false (hu d ?_)
    have : d ∈ u.dropWhile wsChar := by
      rw [hcase]
      simp
    exact (List.dropWhile_sublist wsChar).subset this

/-- `sub1` walks over a colon-free text terminated by a single quote
without changing it: no key match can fire inside it (word runs are never
followed by a colon — the quote blocks the lookahead at the boundary). -/
theorem sub1_inert_append (s : List Char) (t : List Char)
    (hs : ∀ x ∈ s, x ≠ ':') :
    sub1 (s ++ '\'' :: t) = s ++ sub1 ('\'' :: t) := by
  induction s with
  | nil => rfl
  | cons c s' ih =>
    rw [List.cons_append]
    have ihs : ∀ x ∈ s', x ≠ ':' := fun x hx => hs x (by simp [hx])
    have hstep : sub1 (c :: (s' ++ '\'' :: t)) = c :: sub1 (s' ++ '\'' :: t) := by
      by_cases hw : wordChar c = true
      · apply sub1_cons_step
        refine Or.inr ?_
        rw [List.dropWhile_cons_of_pos hw,
          dropWhile_append_stop s' t (by decide : wordChar '\'' = false)]
        apply lookaheadColon_false
        · intro x hx
          exact ihs x ((List.dropWhile_sublist wordChar).subset hx)
        · decide
        · decide
      · exact sub1_cons_step (Or.inl (Bool.eq_false_iff.mpr hw))
    rw [hstep, ih ihs]
    rfl

/-- The lookahead succeeds at a colon. -/
theorem lookaheadColon_here (t : List Char) : lookaheadColon (':' :: t) = true := by
  unfold lookaheadColon
  rw [List.dropWhile_cons_of_neg (by decide)]
  rfl

/-- `sub1` leaves a word run alone when the stopper after it is not
whitespace and not a colon. -/
theorem sub1_run_inert (w : List Char) {b : Char} (t : List Char)
    (hw : ∀ x ∈ w, wordChar x = true)
    (hbw : wordChar b = false) (hbs : wsChar b = false) (hb : b ≠ ':') :
    sub1 (w ++ b :: t) = w ++ sub1 (b :: t) := by
  induction w with
  | nil => rfl
  | cons c w' ih =>
    have ihw : ∀ x ∈ w', wordChar x = true := fun x hx => hw x (by simp [hx])
    rw [List.cons_append]
    have hstep : sub1 (c :: (w' ++ b :: t)) = c :: sub1 (w' ++ b :: t) := by
      apply sub1_cons_step
      refine Or.inr ?_
      rw [List.dropWhile_cons_of_pos (hw c (by simp)),
        dropWhile_run t ihw hbw]
      exact lookaheadColon_false [] t (by simp) hbs hb
    rw [hstep, ih ihw]
    rfl

/-- `sub1` wraps a key followed by a colon in double quotes. -/
theorem sub1_key (k : List Char) (t : List Char) (hne : k ≠ [])
    (hk : ∀ x ∈ k, wordChar x = true) :
    sub1 (k ++ ':' :: t) = '"' :: (k ++ '"' :: sub1 (':' :: t)) := by
  cases k with
  | nil => exact absurd rfl hne
  | cons c k' =>
    have hw : wordChar c = true := hk c (by simp)
    have hk' : ∀ x ∈ k', wordChar x = true := fun x hx => hk x (by simp [hx])
    have hdrop : (c :: (k' ++ ':' :: t)).dropWhile wordChar = ':' :: t := by
      rw [List.dropWhile_cons_of_pos hw, dropWhile_run t hk' (by decide)]
    have htake : (c :: (k' ++ ':' :: t)).takeWhile wordChar = c :: k' := by
      rw [List.takeWhile_cons_of_pos hw, takeWhile_run t hk' (by decide)]
    rw [List.cons_append, sub1_cons_quote hw (by rw [hdrop]; exact lookaheadColon_here t),
      hdrop, htake]

/-- `sub1` leaves a rendered value alone when followed by a structural
stopper (`,` or `}`). -/
theorem sub1_lit {v : GLit} (hv : wfLit v = true) {b : Char} (t : List Char)
    (hbw : wordChar b = false) (hbs : wsChar b = false) (hb : b ≠ ':') :
    sub1 (renderLit v ++ b :: t) = renderLit v ++ sub1 (b :: t) := by
  cases v with
  | num ds =>
    unfold wfLit at hv
    simp only [Bool.and_eq_true] at hv
    exact sub1_run_inert ds t (fun x hx => wordChar_of_isDigit
      (by have := hv.1.2; rw [List.all_eq_true] at this; exact this x hx)) hbw hbs hb
  | str s =>
    unfold wfLit at hv
    rw [List.all_eq_true] at hv
    have hs : ∀ x ∈ s, x ≠ ':' := fun x hx => (safeStrChar_facts (hv x hx)).2.2.2.1
    show sub1 ('\'' :: (s ++ ['\'']) ++ b :: t) = '\'' :: (s ++ ['\'']) ++ sub1 (b :: t)
    have h1 : '\'' :: (s ++ ['\'']) ++ b :: t = '\'' :: (s ++ '\'' :: b :: t) := by
      simp
    rw [h1, sub1_cons_step (Or.inl (by decide)), sub1_inert_append s (b :: t) hs,
      sub1_cons_step (Or.inl (by decide))]
    simp

/-- `sub1` on a rendered field list terminated by `}`. -/
theorem sub1_fields (fs : List (List Char × GLit)) (t : List Char)
    (hfs : ∀ f ∈ fs, wfField f = true) :
    sub1 (renderFields fs ++ '}' :: t) = renderFieldsK fs ++ sub1 ('}' :: t) := by
  induction fs with
  | nil => rfl
  | cons f fs' ih =>
    have hf := hfs f (by simp)
    unfold wfField at hf
    simp only [Bool.and_eq_true, Bool.not_eq_true', List.isEmpty_eq_false] at hf
    obtain ⟨⟨hne, hkey⟩, hlit⟩ := hf
    rw [List.all_eq_true] at hkey
    cases fs' with
    | nil =>
      show sub1 (renderField f ++ '}' :: t) = renderFieldK f ++ sub1 ('}' :: t)
      unfold renderField renderFieldK
      have hshape : (f.1 ++ ':' :: ' ' :: renderLit f.2) ++ '}' :: t =
          f.1 ++ ':' :: ' ' :: (renderLit f.2 ++ '}' :: t) := by simp
      rw [hshape, sub1_key f.1 _ hne hkey, sub1_cons_step (Or.inl (by decide)),
        sub1_cons_step (Or.inl (by decide)), sub1_lit hlit t (by decide) (by decide) (by decide)]
      simp
    | cons f2 fs'' =>
      have ih2 := ih fun g hg => hfs g (by simp [hg])
      show sub1 (renderField f ++ ',' :: ' ' :: renderFields (f2 :: fs'') ++ '}' :: t) =
        renderFieldK f ++ ',' :: ' ' :: renderFieldsK (f2 :: fs'') ++ sub1 ('}' :: t)
      unfold renderField renderFieldK
      have hshape : f.1 ++ ':' :: ' ' :: renderLit f.2 ++ ',' :: ' ' :: renderFields (f2 :: fs'') ++ '}' :: t =
          f.1 ++ ':' :: ' ' :: (renderLit f.2 ++ ',' :: ' ' :: (renderFields (f2 :: fs'') ++ '}' :: t)) := by
        simp
      rw [hshape, sub1_key f.1 _ hne hkey, sub1_cons_step (Or.inl (by decide)),
        sub1_cons_step (Or.inl (by decide)),
        sub1_lit hlit _ (by decide) (by decide) (by decide),
        sub1_cons_step (Or.inl (by decide)), sub1_cons_step (Or.inl (by decide)), ih2]
      simp

/-- `sub1` on a rendered object list terminated by `]`. -/
theorem sub1_objs (objs : List GObj) (t : List Char)
    (hos : ∀ o ∈ objs, wfObj o = true) :
    sub1 (renderObjs objs ++ ']' :: t) = renderObjsK objs ++ sub1 (']' :: t) := by
  induction objs with
  | nil => rfl
  | cons o objs' ih =>
    have ho := hos o (by simp)
    unfold wfObj at ho
    rw [List.all_eq_true] at ho
    cases objs' with
    | nil =>
      show sub1 (renderObj o ++ ']' :: t) = renderObjK o ++ sub1 (']' :: t)
      unfold renderObj renderObjK
      have hshape : '{' :: (renderFields o ++ ['}']) ++ ']' :: t =
          '{' :: (renderFields o ++ '}' :: ']' :: t) := by simp
      rw [hshape, sub1_cons_step (Or.inl (by decide)), sub1_fields o _ ho,
        sub1_cons_step (Or.inl (by decide))]
      simp
    | cons o2 objs'' =>
      have ih2 := ih fun g hg => hos g (by simp [hg])
      show sub1 (renderObj o ++ ',' :: ' ' :: renderObjs (o2 :: objs'') ++ ']' :: t) =
        renderObjK o ++ ',' :: ' ' :: renderObjsK (o2 :: objs'') ++ sub1 (']' :: t)
      unfold renderObj renderObjK
      have hshape : '{' :: (renderFields o ++ ['}']) ++ ',' :: ' ' :: renderObjs (o2 :: objs'') ++ ']' :: t =
          '{' :: (renderFields o ++ '}' :: ',' :: ' ' :: (renderObjs (o2 :: objs'') ++ ']' :: t)) := by
        simp
      rw [hshape, sub1_cons_step (Or.inl (by decide)), sub1_fields o _ ho,
        sub1_cons_step (Or.inl (by decide)), sub1_cons_step (Or.inl (by decide)),
        sub1_cons_step (Or.inl (by decide)), ih2]
      simp

/-- The key-quoting substitution turns a supported-shape literal into its
key-quoted form. -/
theorem sub1_renderArr (objs : List GObj) (h : wfObjs objs = true) :
    sub1 (renderArr objs) = renderArrK objs := by
  unfold wfObjs at h
  rw [List.all_eq_true] at h
  unfold renderArr renderArrK
  have hshape : ('[' : Char) :: (renderObjs objs ++ [']']) =
      '[' :: (renderObjs objs ++ ']' :: ([] : List Char)) := by simp
  rw [hshape, sub1_cons_step (Or.inl (by decide)), sub1_objs objs [] h,
    sub1_cons_step (Or.inl (by decide))]
  rfl

/-! ### The quote-replacing substitution on key-quoted renders -/

/-- `breakAtChar` recovers the decomposition around the first occurrence. -/
theorem breakAtChar_append (q : Char) (a : List Char) (b : List Char)
    (ha : ∀ x ∈ a, x ≠ q) : breakAtChar q (a ++ q :: b) = some (a, b) := by
  induction a with
  | nil =>
    rw [List.nil_append]
    show (if q = q then some (([] : List Char), b) else _) = _
    rw [if_pos rfl]
  | cons c a' ih =>
    rw [List.cons_append]
    show (if c = q then some (([] : List Char), a' ++ q :: b)
      else match breakAtChar q (a' ++ q :: b) with
        | some p => some (c :: p.1, p.2)
        | none => none) = _
    rw [if_neg (ha c (by simp)), ih fun x hx => ha x (by simp [hx])]

/-- A successful `breakAtChar` decomposes the input. -/
theorem breakAtChar_eq {q : Char} : ∀ {cs a b : List Char},
    breakAtChar q cs = some (a, b) → cs = a ++ q :: b := by
  intro cs
  induction cs with
  | nil => intro a b h; cases h
  | cons c cs' ih =>
    intro a b h
    unfold breakAtChar at h
    by_cases hc : c = q
    · rw [if_pos hc] at h
      cases h
      rw [hc]
      rfl
    · rw [if_neg hc] at h
      cases hbr : breakAtChar q cs' with
      | none => rw [hbr] at h; cases h
      | some p =>
        rw [hbr] at h
        cases h
        have := ih hbr
        rw [List.cons_append, ← this]

/-- The fuel of `sub2Go` is irrelevant once it covers the input length. -/
theorem sub2Go_congr : ∀ (f g : Nat) (cs : List Char), cs.length ≤ f → cs.length ≤ g →
    sub2Go f cs = sub2Go g cs := by
  intro f
  induction f with
  | zero =>
    intro g cs h1 _
    have h0 : cs = [] := List.eq_nil_of_length_eq_zero (Nat.le_zero.mp h1)
    subst h0
    cases g <;> rfl
  | succ f ih =>
    intro g cs h1 h2
    cases cs with
    | nil => cases g <;> rfl
    | cons c cs' =>
      cases g with
      | zero => simp at h2
      | succ g' =>
        simp only [List.length_cons, Nat.add_le_add_iff_right] at h1 h2
        simp only [sub2Go]
        by_cases hc : c = '\''
        · rw [if_pos hc, if_pos hc]
          cases hbr : breakAtChar '\'' cs' with
          | none =>
            show c :: sub2Go f cs' = c :: sub2Go g' cs'
            rw [ih g' cs' h1 h2]
          | some p =>
            have hlen : p.2.length ≤ cs'.length := by
              have heq := breakAtChar_eq (a := p.1) (b := p.2) (by rw [hbr])
              rw [heq, List.length_append, List.length_cons]
              omega
            show '"' :: (p.1 ++ '"' :: sub2Go f p.2) = '"' :: (p.1 ++ '"' :: sub2Go g' p.2)
            rw [ih g' p.2 (le_trans hlen h1) (le_trans hlen h2)]
        · rw [if_neg hc, if_neg hc, ih g' cs' h1 h2]

/-- `sub2` steps over anything but a single quote. -/
theorem sub2_cons_other {c : Char} {cs : List Char} (h : c ≠ '\'') :
    sub2 (c :: cs) = c :: sub2 cs := by
  show sub2Go (c :: cs).length (c :: cs) = _
  simp only [List.length_cons, sub2Go]
  rw [if_neg h]
  rfl

/-- `sub2` replaces a quote pair by double quotes. -/
theorem sub2_pair (s : List Char) (t : List Char) (hs : ∀ x ∈ s, x ≠ '\'') :
    sub2 ('\'' :: (s ++ '\'' :: t)) = '"' :: (s ++ '"' :: sub2 t) := by
  show sub2Go ('\'' :: (s ++ '\'' :: t)).length ('\'' :: (s ++ '\'' :: t)) = _
  simp only [List.length_cons, sub2Go]
  rw [breakAtChar_append '\'' s t hs]
  show '"' :: (s ++ '"' :: sub2Go (s ++ '\'' :: t).length t) = _
  have hlen : t.length ≤ (s ++ '\'' :: t).length := by
    rw [List.length_append, List.length_cons]
    omega
  rw [sub2Go_congr (s ++ '\'' :: t).length t.length t hlen le_rfl]
  rfl

/-- `sub2` leaves a quote-free run alone. -/
theorem sub2_inert (u : List Char) (t : List Char) (hu : ∀ x ∈ u, x ≠ '\'') :
    sub2 (u ++ t) = u ++ sub2 t := by
  induction u with
  | nil => rfl
  | cons c u' ih =>
    rw [List.cons_append, sub2_cons_other (hu c (by simp)),
      ih fun x hx => hu x (by simp [hx])]
    rfl

/-- `sub2` on a key-quoted value: a string value becomes double-quoted
with the same content; a number is untouched. -/
theorem sub2_lit {v : GLit} (hv : wfLit v = true) (t : List Char) :
    sub2 (renderLit v ++ t) = renderLitJ v ++ sub2 t := by
  cases v with
  | num ds =>
    unfold wfLit at hv
    simp only [Bool.and_eq_true] at hv
    refine sub2_inert ds t fun x hx => ?_
    have hd : x.isDigit = true := by
      have := hv.1.2
      rw [List.all_eq_true] at this
      exact this x hx
    exact (wordChar_facts (wordChar_of_isDigit hd)).2.2.2.1
  | str s =>
    unfold wfLit at hv
    rw [List.all_eq_true] at hv
    have hs : ∀ x ∈ s, x ≠ '\'' := fun x hx => (safeStrChar_facts (hv x hx)).1
    show sub2 ('\'' :: (s ++ ['\'']) ++ t) = '"' :: (s ++ ['"']) ++ sub2 t
    have hshape : '\'' :: (s ++ ['\'']) ++ t = '\'' :: (s ++ '\'' :: t) := by simp
    rw [hshape, sub2_pair s t hs]
    simp

/-- A key consists of quote-free characters. -/
theorem key_no_quote {k : List Char} (hk : ∀ x ∈ k, wordChar x = true) :
    ∀ x ∈ '"' :: (k ++ ['"', ':', ' ']), x ≠ '\'' := by
  intro x hx
  rcases List.mem_cons.mp hx with h | h
  · subst h; decide
  · rcases List.mem_append.mp h with h | h
    · exact (wordChar_facts (hk x h)).2.2.2.1
    · have hx3 : x = '"' ∨ x = ':' ∨ x = ' ' := by simpa using h
      rcases hx3 with h3 | h3 | h3 <;> (subst h3; decide)

/-- `sub2` on a key-quoted field list. -/
theorem sub2_fields (fs : List (List Char × GLit)) (t : List Char)
    (hfs : ∀ f ∈ fs, wfField f = true) :
    sub2 (renderFieldsK fs ++ t) = renderFieldsJ fs ++ sub2 t := by
  induction fs with
  | nil => rfl
  | cons f fs' ih =>
    have hf := hfs f (by simp)
    unfold wfField at hf
    simp only [Bool.and_eq_true, Bool.not_eq_true', List.isEmpty_eq_false] at hf
    obtain ⟨⟨hne, hkey⟩, hlit⟩ := hf
    rw [List.all_eq_true] at hkey
    cases fs' with
    | nil =>
      show sub2 (renderFieldK f ++ t) = renderFieldJ f ++ sub2 t
      unfold renderFieldK renderFieldJ
      have hshape : '"' :: (f.1 ++ '"' :: ':' :: ' ' :: renderLit f.2) ++ t =
          ('"' :: (f.1 ++ ['"', ':', ' '])) ++ (renderLit f.2 ++ t) := by simp
      rw [hshape, sub2_inert _ _ (key_no_quote hkey), sub2_lit hlit t]
      simp
    | cons f2 fs'' =>
      have ih2 := ih fun g hg => hfs g (by simp [hg])
      show sub2 (renderFieldK f ++ ',' :: ' ' :: renderFieldsK (f2 :: fs'') ++ t) =
        renderFieldJ f ++ ',' :: ' ' :: renderFieldsJ (f2 :: fs'') ++ sub2 t
      unfold renderFieldK renderFieldJ
      have hshape : '"' :: (f.1 ++ '"' :: ':' :: ' ' :: renderLit f.2) ++
            ',' :: ' ' :: renderFieldsK (f2 :: fs'') ++ t =
          ('"' :: (f.1 ++ ['"', ':', ' '])) ++
            (renderLit f.2 ++ (',' :: ' ' :: (renderFieldsK (f2 :: fs'') ++ t))) := by simp
      rw [hshape, sub2_inert _ _ (key_no_quote hkey), sub2_lit hlit _,
        sub2_cons_other (by decide), sub2_cons_other (by decide), ih2]
      simp

/-- `sub2` on a key-quoted object list. -/
theorem sub2_objs (objs : List GObj) (t : List Char)
    (hos : ∀ o ∈ objs, wfObj o = true) :
    sub2 (renderObjsK objs ++ t) = renderObjsJ objs ++ sub2 t := by
  induction objs with
  | nil => rfl
  | cons o objs' ih =>
    have ho := hos o (by simp)
    unfold wfObj at ho
    rw [List.all_eq_true] at ho
    cases objs' with
    | nil =>
      show sub2 (renderObjK o ++ t) = renderObjJ o ++ sub2 t
      unfold renderObjK renderObjJ
      have hshape : '{' :: (renderFieldsK o ++ ['}']) ++ t =
          '{' :: (renderFieldsK o ++ ('}' :: t)) := by simp
      rw [hshape, sub2_cons_other (by decide), sub2_fields o _ ho,
        sub2_cons_other (by decide)]
      simp
    | cons o2 objs'' =>
      have ih2 := ih fun g hg => hos g (by simp [hg])
      show sub2 (renderObjK o ++ ',' :: ' ' :: renderObjsK (o2 :: objs'') ++ t) =
        renderObjJ o ++ ',' :: ' ' :: renderObjsJ (o2 :: objs'') ++ sub2 t
      unfold renderObjK renderObjJ
      have hshape : '{' :: (renderFieldsK o ++ ['}']) ++
            ',' :: ' ' :: renderObjsK (o2 :: objs'') ++ t =
          '{' :: (renderFieldsK o ++ ('}' :: ',' :: ' ' ::
            (renderObjsK (o2 :: objs'') ++ t))) := by simp
      rw [hshape, sub2_cons_other (by decide), sub2_fields o _ ho,
        sub2_cons_other (by decide), sub2_cons_other (by decide),
        sub2_cons_other (by decide), ih2]
      simp

/-- The quote substitution turns a key-quoted literal into strict JSON. -/
theorem sub2_renderArrK (objs : List GObj) (h : wfObjs objs = true) :
    sub2 (renderArrK objs) = renderArrJ objs := by
  unfold wfObjs at h
  rw [List.all_eq_true] at h
  unfold renderArrK renderArrJ
  have hshape : ('[' : Char) :: (renderObjsK objs ++ [']']) =
      '[' :: (renderObjsK objs ++ (']' :: ([] : List Char))) := by simp
  rw [hshape, sub2_cons_other (by decide), sub2_objs objs _ h,
    sub2_cons_other (by decide)]
  rfl

/-- The whole textual repair takes a supported-shape literal to its
strict-JSON form: keys double-quoted, single-quoted strings double-quoted
with content unchanged, numbers untouched. -/
theorem repair_renderArr (objs : List GObj) (h : wfObjs objs = true) :
    repair (renderArr objs) = renderArrJ objs := by
  unfold repair
  rw [sub1_renderArr objs h, sub2_renderArrK objs h]

/-! ### The regex capture on supported-shape raw text -/

/-- `stripLit` strips exactly the literal it is given. -/
theorem stripLit_append (a : List Char) (rest : List Char) :
    stripLit a (a ++ rest) = some rest := by
  induction a with
  | nil => rfl
  | cons c a' ih =>
    show (if c = c then stripLit a' (a' ++ rest) else none) = some rest
    rw [if_pos rfl, ih]

/-- The lazy scan stops at the first `];`, which is at the end when the
body has no `]`. -/
theorem upTo_no_bracket (body : List Char) (t : List Char) (hb : ']' ∉ body) :
    upToBracketSemi (body ++ ']' :: ';' :: t) = some body := by
  induction body with
  | nil =>
    show upToBracketSemi (']' :: ';' :: t) = some []
    unfold upToBracketSemi
    rw [if_pos rfl]
    rfl
  | cons c body' ih =>
    have hc : c ≠ ']' := fun h => hb (h ▸ List.mem_cons_self c body')
    show upToBracketSemi (c :: (body' ++ ']' :: ';' :: t)) = some (c :: body')
    unfold upToBracketSemi
    rw [if_neg hc, ih fun h => hb (List.mem_cons_of_mem c h)]
    rfl

/-- No `]` occurs in a rendered well-formed value. -/
theorem renderLit_no_bracket {v : GLit} (hv : wfLit v = true) : ']' ∉ renderLit v := by
  intro hx
  cases v with
  | num ds =>
    unfold wfLit at hv
    simp only [Bool.and_eq_true] at hv
    have hd := hv.1.2
    rw [List.all_eq_true] at hd
    have hn := isDigit_toNat (hd ']' hx)
    have h93 : (']' : Char).toNat = 93 := rfl
    omega
  | str s =>
    unfold wfLit at hv
    rw [List.all_eq_true] at hv
    unfold renderLit at hx
    rcases List.mem_cons.mp hx with h | h
    · exact absurd h (by decide)
    · rcases List.mem_append.mp h with h | h
      · exact (safeStrChar_facts (hv _ h)).2.2.2.2.1 rfl
      · simp at h

/-- No `]` occurs in a rendered well-formed field. -/
theorem renderField_no_bracket {f : List Char × GLit} (hf : wfField f = true) :
    ']' ∉ renderField f := by
  intro hx
  unfold wfField at hf
  simp only [Bool.and_eq_true] at hf
  obtain ⟨⟨_, hkey⟩, hlit⟩ := hf
  rw [List.all_eq_true] at hkey
  unfold renderField at hx
  rcases List.mem_append.mp hx with h | h
  · have := wordChar_toNat (hkey _ h)
    have h93 : (']' : Char).toNat = 93 := rfl
    omega
  · rcases List.mem_cons.mp h with h | h
    · exact absurd h (by decide)
    · rcases List.mem_cons.mp h with h | h
      · exact absurd h (by decide)
      · exact renderLit_no_bracket hlit h

/-- No `]` occurs in a rendered well-formed field list. -/
theorem renderFields_no_bracket (fs : List (List Char × GLit))
    (hfs : ∀ f ∈ fs, wfField f = true) : ']' ∉ renderFields fs := by
  intro hx
  induction fs with
  | nil => cases hx
  | cons f fs' ih =>
    cases fs' with
    | nil => exact renderField_no_bracket (hfs f (by simp)) hx
    | cons f2 fs'' =>
      rcases List.mem_append.mp hx with h | h
      · exact renderField_no_bracket (hfs f (by simp)) h
      · rcases List.mem_cons.mp h with h | h
        · exact absurd h (by decide)
        · rcases List.mem_cons.mp h with h | h
          · exact absurd h (by decide)
          · exact ih (fun g hg => hfs g (by simp [hg])) h

/-- No `]` occurs in a rendered well-formed object. -/
theorem renderObj_no_bracket {o : GObj} (ho : wfObj o = true) : ']' ∉ renderObj o := by
  intro hx
  unfold wfObj at ho
  rw [List.all_eq_true] at ho
  unfold renderObj at hx
  rcases List.mem_cons.mp hx with h | h
  · exact absurd h (by decide)
  · rcases List.mem_append.mp h with h | h
    · exact renderFields_no_bracket o ho h
    · simp at h

/-- No `]` occurs inside a rendered well-formed object list. -/
theorem renderObjs_no_bracket (objs : List GObj)
    (hos : ∀ o ∈ objs, wfObj o = true) : ']' ∉ renderObjs objs := by
  intro hx
  induction objs with
  | nil => cases hx
  | cons o objs' ih =>
    cases objs' with
    | nil => exact renderObj_no_bracket (hos o (by simp)) hx
    | cons o2 objs'' =>
      rcases List.mem_append.mp hx with h | h
      · exact renderObj_no_bracket (hos o (by simp)) h
      · rcases List.mem_cons.mp h with h | h
        · exact absurd h (by decide)
        · rcases List.mem_cons.mp h with h | h
          · exact absurd h (by decide)
          · exact ih (fun g hg => hos g (by simp [hg])) h

/-- One step of the leftmost regex search. -/
theorem findArrayLiteral_cons (c : Char) (cs : List Char) :
    findArrayLiteral (c :: cs) =
      match matchAssign (c :: cs) with
      | some cap => some cap
      | none => findArrayLiteral cs := rfl

/-- The regex search on a supported-shape raw text captures exactly the
rendered array literal (the pattern matches at position 0 and the lazy
`.*?\];` stops at the literal's own terminator). -/
theorem findArrayLiteral_mkRaw (objs : List GObj) (suffix : List Char)
    (h : wfObjs objs = true) :
    findArrayLiteral (mkRaw objs suffix).data = some (renderArr objs) := by
  have hnb : ']' ∉ renderObjs objs := by
    unfold wfObjs at h
    rw [List.all_eq_true] at h
    exact renderObjs_no_bracket objs h
  have hm : matchAssign ('c' :: ("onst bicycleDataRaw = ".data ++
      (renderArr objs ++ ';' :: suffix))) = some (renderArr objs) := by
    show (upToBracketSemi ((renderObjs objs ++ [']']) ++ ';' :: suffix)).map
      (fun inner => '[' :: (inner ++ [']'])) = some (renderArr objs)
    rw [List.append_assoc]
    rw [show ([']'] ++ ';' :: suffix) = ']' :: ';' :: suffix from rfl]
    rw [upTo_no_bracket _ _ hnb]
    rfl
  show findArrayLiteral ('c' :: ("onst bicycleDataRaw = ".data ++
    (renderArr objs ++ ';' :: suffix))) = some (renderArr objs)
  rw [findArrayLiteral_cons, hm]

/-! ### The strict JSON parse of repaired supported-shape text -/

/-- A digit starts none of the non-number branches of `parseValue`. -/
theorem digit_branch_facts {c : Char} (h : c.isDigit = true) :
    jsonWs c = false ∧ c ≠ '[' ∧ c ≠ '{' ∧ c ≠ '"' ∧ c ≠ 't' ∧ c ≠ 'f' ∧
      c ≠ 'n' ∧ c ≠ '-' ∧ c ≠ '.' ∧ c ≠ 'e' ∧ c ≠ 'E' := by
  have ht := isDigit_toNat h
  have hw := wordChar_facts (wordChar_of_isDigit h)
  have hne : ∀ n : Nat, c.toNat ≠ n → ∀ d : Char, d.toNat = n → c ≠ d := by
    intro n hn d hd
    exact char_ne_of_toNat_ne (by omega)
  exact ⟨hw.2.1, hne 91 (by omega) '[' rfl, hne 123 (by omega) '{' rfl,
    hne 34 (by omega) '"' rfl, hne 116 (by omega) 't' rfl, hne 102 (by omega) 'f' rfl,
    hne 110 (by omega) 'n' rfl, hne 45 (by omega) '-' rfl, hne 46 (by omega) '.' rfl,
    hne 101 (by omega) 'e' rfl, hne 69 (by omega) 'E' rfl⟩

/-- `parseStringBody` scans a body of plain characters up to the closing
quote. -/
theorem parseStringBody_append (s : List Char) (t : List Char)
    (hs : ∀ x ∈ s, x ≠ '"' ∧ x ≠ '\\' ∧ 32 ≤ x.toNat) :
    parseStringBody (s ++ '"' :: t) = some (s, t) := by
  induction s with
  | nil =>
    show parseStringBody ('"' :: t) = some ([], t)
    unfold parseStringBody
    rw [if_pos rfl]
  | cons c s' ih =>
    obtain ⟨h1, h2, h3⟩ := hs c (by simp)
    show parseStringBody (c :: (s' ++ '"' :: t)) = some (c :: s', t)
    unfold parseStringBody
    rw [if_neg h1, if_neg h2, if_neg (by omega : ¬c.toNat < 32),
      ih fun x hx => hs x (by simp [hx])]

/-- `parseNumber` on a digit run followed by a `,` or `}` stopper. -/
theorem parseNumber_digits (ds : List Char) {b : Char} (t : List Char)
    (hds : ds ≠ []) (hdig : ∀ x ∈ ds, x.isDigit = true)
    (hlz : ds.length = 1 ∨ ds.headD '0' ≠ '0')
    (hb : b = ',' ∨ b = '}') :
    parseNumber (ds ++ b :: t) = some (decValue 1 ds [] 0, b :: t) := by
  have hbd : b.isDigit = false := by
    rcases hb with hb | hb <;> (subst hb; decide)
  have hsign : (match ds ++ b :: t with
      | '-' :: r => ((-1 : Int), r)
      | r => ((1 : Int), r)) = (1, ds ++ b :: t) := by
    split
    · rename_i r heq
      cases ds with
      | nil => exact absurd rfl hds
      | cons d ds' =>
        rw [List.cons_append] at heq
        have hd : d = '-' := (List.cons.injEq ..).mp heq |>.1
        have := digit_branch_facts (hdig d (by simp))
        exact absurd hd this.2.2.2.2.2.2.2.1
    · rfl
  have hlzf : (decide (2 ≤ ds.length) && decide (ds.headD '0' = '0')) = false := by
    rcases hlz with h | h
    · simp [h]
    · rw [decide_eq_false h, Bool.and_false]
  rcases hb with rfl | rfl <;>
  · unfold parseNumber
    rw [hsign]
    simp only
    rw [takeWhile_run t hdig hbd, dropWhile_run t hdig hbd]
    rw [if_neg (by simp [hds] : ¬ds.isEmpty = true),
      if_neg (by rw [hlzf]; exact Bool.false_ne_true)]
    rfl

/-- `parseValue` ignores leading JSON whitespace. -/
theorem parseValue_ws (f : Nat) (u cs : List Char)
    (hu : ∀ x ∈ u, jsonWs x = true) :
    parseValue f (u ++ cs) = parseValue f cs := by
  cases f with
  | zero => rfl
  | succ f' =>
    unfold parseValue
    have : (u ++ cs).dropWhile jsonWs = cs.dropWhile jsonWs := by
      induction u with
      | nil => rfl
      | cons d u' ih =>
        rw [List.cons_append, List.dropWhile_cons_of_pos (hu d (by simp))]
        exact ih fun x hx => hu x (by simp [hx])
    rw [this]

/-- `parseObjFields` ignores leading JSON whitespace. -/
theorem parseObjFields_ws (f : Nat) (u cs : List Char)
    (hu : ∀ x ∈ u, jsonWs x = true) :
    parseObjFields f (u ++ cs) = parseObjFields f cs := by
  cases f with
  | zero => rfl
  | succ f' =>
    unfold parseObjFields
    have : (u ++ cs).dropWhile jsonWs = cs.dropWhile jsonWs := by
      induction u with
      | nil => rfl
      | cons d u' ih =>
        rw [List.cons_append, List.dropWhile_cons_of_pos (hu d (by simp))]
        exact ih fun x hx => hu x (by simp [hx])
    rw [this]

/-- `parseArrayElems` ignores leading JSON whitespace. -/
theorem parseArrayElems_ws (f : Nat) (u cs : List Char)
    (hu : ∀ x ∈ u, jsonWs x = true) :
    parseArrayElems f (u ++ cs) = parseArrayElems f cs := by
  cases f with
  | zero => rfl
  | succ f' =>
    unfold parseArrayElems
    rw [parseValue_ws f' u cs hu]

/-- `parseValue` on a repaired value followed by a `,` or `}` stopper. -/
theorem parseValue_lit (f : Nat) {v : GLit} (hv : wfLit v = true) {b : Char}
    (t : List Char) (hb : b = ',' ∨ b = '}') :
    parseValue (f + 1) (renderLitJ v ++ b :: t) = some (litToJson v, b :: t) := by
  cases v with
  | num ds =>
    unfold wfLit at hv
    simp only [Bool.and_eq_true, Bool.not_eq_true', List.isEmpty_eq_false,
      Bool.or_eq_true, beq_iff_eq, Bool.not_eq_true, bne_iff_ne] at hv
    obtain ⟨⟨hne, hdig⟩, hlz⟩ := hv
    rw [List.all_eq_true] at hdig
    cases ds with
    | nil => exact absurd rfl hne
    | cons d ds' =>
      have hfacts := digit_branch_facts (hdig d (by simp))
      have hnum := parseNumber_digits (d :: ds') t hne hdig
        (by
          rcases hlz with h | h
          · exact Or.inl h
          · refine Or.inr ?_
            simpa using h) hb
      rw [List.cons_append] at hnum
      show parseValue (f + 1) (d :: (ds' ++ b :: t)) = _
      unfold parseValue
      rw [List.dropWhile_cons_of_neg (by simp [hfacts.1])]
      simp only [hfacts.2.1, hfacts.2.2.1, hfacts.2.2.2.1, hfacts.2.2.2.2.1,
        hfacts.2.2.2.2.2.1, hfacts.2.2.2.2.2.2.1, if_false, hnum]
      rfl
  | str s =>
    unfold wfLit at hv
    rw [List.all_eq_true] at hv
    show Option.map (fun p => (Json.str ⟨p.1⟩, p.2))
      (parseStringBody ((s ++ ['"']) ++ b :: t)) = some (litToJson (GLit.str s), b :: t)
    have hshape : (s ++ ['"']) ++ b :: t = s ++ '"' :: (b :: t) := by simp
    rw [hshape, parseStringBody_append s (b :: t) fun x hx => by
      have hfs := safeStrChar_facts (hv x hx)
      exact ⟨hfs.2.1, hfs.2.2.1, hfs.2.2.2.2.2⟩]
    rfl

/-- `parseObjFields` on a repaired nonempty field list consuming the
closing `}`. -/
theorem parseObjFields_render : ∀ (fs : List (List Char × GLit)), fs ≠ [] →
    (∀ g ∈ fs, wfField g = true) → ∀ (f : Nat), 3 * fs.length + 2 ≤ f → ∀ (t : List Char),
    parseObjFields f (renderFieldsJ fs ++ '}' :: t) = some (fs.map fieldToJson, t) := by
  intro fs
  induction fs with
  | nil => intro h; exact absurd rfl h
  | cons fld fs' ih =>
    intro _ hwf f hf t
    have hfld := hwf fld (by simp)
    unfold wfField at hfld
    simp only [Bool.and_eq_true, Bool.not_eq_true', List.isEmpty_eq_false] at hfld
    obtain ⟨⟨hne, hkey⟩, hlit⟩ := hfld
    rw [List.all_eq_true] at hkey
    have hkeyfacts : ∀ x ∈ fld.1, x ≠ '"' ∧ x ≠ '\\' ∧ 32 ≤ x.toNat := fun x hx => by
      obtain ⟨_, _, _, _, hq, hbs, _, _, _, _, h32⟩ := wordChar_facts (hkey x hx)
      exact ⟨hq, hbs, h32⟩
    obtain ⟨c, rfl⟩ : ∃ c, f = c + 1 + 1 + 1 := ⟨f - 3, by simp at hf; omega⟩
    cases fs' with
    | nil =>
      show parseObjFields (c + 1 + 1 + 1) (renderFieldJ fld ++ '}' :: t) = _
      unfold renderFieldJ
      have hshape : '"' :: (fld.1 ++ '"' :: ':' :: ' ' :: renderLitJ fld.2) ++ '}' :: t =
          '"' :: (fld.1 ++ '"' :: (':' :: ([' '] ++ (renderLitJ fld.2 ++ '}' :: t)))) := by
        simp
      rw [hshape]
      show (parseStringBody (fld.1 ++ '"' :: (':' :: ([' '] ++
          (renderLitJ fld.2 ++ '}' :: t))))).bind (parseFieldTail (c + 1 + 1)) =
        some ([fld].map fieldToJson, t)
      rw [parseStringBody_append fld.1 _ hkeyfacts]
      show (parseValue (c + 1) ([' '] ++ (renderLitJ fld.2 ++ '}' :: t))).bind
        (parseFieldSep (c + 1) fld.1) = some ([fld].map fieldToJson, t)
      rw [parseValue_ws (c + 1) [' '] _ (by decide),
        parseValue_lit c hlit t (Or.inr rfl)]
      rfl
    | cons fld2 fs'' =>
      show parseObjFields (c + 1 + 1 + 1)
        (renderFieldJ fld ++ ',' :: ' ' :: renderFieldsJ (fld2 :: fs'') ++ '}' :: t) = _
      unfold renderFieldJ
      have hshape : '"' :: (fld.1 ++ '"' :: ':' :: ' ' :: renderLitJ fld.2) ++
            ',' :: ' ' :: renderFieldsJ (fld2 :: fs'') ++ '}' :: t =
          '"' :: (fld.1 ++ '"' :: (':' :: ([' '] ++ (renderLitJ fld.2 ++
            ',' :: ([' '] ++ (renderFieldsJ (fld2 :: fs'') ++ '}' :: t)))))) := by
        simp
      rw [hshape]
      show (parseStringBody (fld.1 ++ '"' :: (':' :: ([' '] ++ (renderLitJ fld.2 ++
          ',' :: ([' '] ++ (renderFieldsJ (fld2 :: fs'') ++ '}' :: t))))))).bind
        (parseFieldTail (c + 1 + 1)) = some ((fld :: fld2 :: fs'').map fieldToJson, t)
      rw [parseStringBody_append fld.1 _ hkeyfacts]
      show (parseValue (c + 1) ([' '] ++ (renderLitJ fld.2 ++
          ',' :: ([' '] ++ (renderFieldsJ (fld2 :: fs'') ++ '}' :: t))))).bind
        (parseFieldSep (c + 1) fld.1) = some ((fld :: fld2 :: fs'').map fieldToJson, t)
      rw [parseValue_ws (c + 1) [' '] _ (by decide),
        parseValue_lit c hlit _ (Or.inl rfl)]
      show (parseObjFields c ([' '] ++ (renderFieldsJ (fld2 :: fs'') ++ '}' :: t))).map
        (fun p => ((⟨fld.1⟩, litToJson fld.2) :: p.1, p.2)) =
        some ((fld :: fld2 :: fs'').map fieldToJson, t)
      have hrec := ih (by simp) (fun g hg => hwf g (by simp [hg])) c
        (by simp at hf ⊢; omega) t
      rw [parseObjFields_ws c [' '] _ (by decide), hrec]
      rfl

/-- `parseValue` on a repaired object literal followed by a `,` or `]`
stopper. -/
theorem parseValue_obj {o : GObj} (ho : wfObj o = true) (f : Nat)
    (hf : 3 * o.length + 4 ≤ f) {b : Char} (t : List Char) (hb : b = ',' ∨ b = ']') :
    parseValue f (renderObjJ o ++ b :: t) = some (objToJson o, b :: t) := by
  unfold wfObj at ho
  obtain ⟨g, rfl⟩ : ∃ g, f = g + 1 + 1 := ⟨f - 2, by omega⟩
  show parseValue (g + 1 + 1) ('{' :: ((renderFieldsJ o ++ ['}']) ++ b :: t)) = _
  have hshape : (renderFieldsJ o ++ ['}']) ++ b :: t =
      renderFieldsJ o ++ '}' :: b :: t := by simp
  rw [hshape]
  show parseObjBody (g + 1) ((renderFieldsJ o ++ '}' :: b :: t).dropWhile jsonWs) = _
  cases o with
  | nil =>
    show parseObjBody (g + 1) (('}' :: b :: t).dropWhile jsonWs) = _
    rw [List.dropWhile_cons_of_neg (by decide)]
    rfl
  | cons fld o' =>
    have hhead : renderFieldsJ (fld :: o') ++ '}' :: b :: t =
        '"' :: ((renderFieldsJ (fld :: o')).tail ++ '}' :: b :: t) := by
      cases o' <;> rfl
    rw [hhead, List.dropWhile_cons_of_neg (by decide)]
    show (parseObjFields g ('"' :: ((renderFieldsJ (fld :: o')).tail ++ '}' :: b :: t))).map
      (fun p => (Json.obj p.1, p.2)) = some (objToJson (fld :: o'), b :: t)
    rw [← hhead, parseObjFields_render (fld :: o') (by simp) (by rw [← List.all_eq_true]; exact ho)
      g (by simp at hf ⊢; omega) (b :: t)]
    rfl

/-- `parseArrayElems` on a repaired nonempty object list consuming the
closing `]`. -/
theorem parseArrayElems_render : ∀ (objs : List GObj), objs ≠ [] →
    (∀ o ∈ objs, wfObj o = true) → ∀ (f : Nat), szObjs objs + 1 ≤ f → ∀ (t : List Char),
    parseArrayElems f (renderObjsJ objs ++ ']' :: t) = some (objs.map objToJson, t) := by
  intro objs
  induction objs with
  | nil => intro h; exact absurd rfl h
  | cons o objs' ih =>
    intro _ hos f hf t
    have hsz : szObjs (o :: objs') = 3 * o.length + 6 + szObjs objs' := rfl
    obtain ⟨b, rfl⟩ : ∃ b, f = b + 1 + 1 := ⟨f - 2, by omega⟩
    cases objs' with
    | nil =>
      show parseArrayElems (b + 1 + 1) (renderObjJ o ++ ']' :: t) = _
      show (parseValue (b + 1) (renderObjJ o ++ ']' :: t)).bind (parseElemSep (b + 1)) = _
      rw [parseValue_obj (hos o (by simp)) (b + 1) (by omega) t (Or.inr rfl)]
      rfl
    | cons o2 objs'' =>
      show parseArrayElems (b + 1 + 1)
        (renderObjJ o ++ ',' :: ' ' :: renderObjsJ (o2 :: objs'') ++ ']' :: t) = _
      have hshape : renderObjJ o ++ ',' :: ' ' :: renderObjsJ (o2 :: objs'') ++ ']' :: t =
          renderObjJ o ++ ',' :: ([' '] ++ (renderObjsJ (o2 :: objs'') ++ ']' :: t)) := by
        simp
      rw [hshape]
      show (parseValue (b + 1) (renderObjJ o ++ ',' :: ([' '] ++
          (renderObjsJ (o2 :: objs'') ++ ']' :: t)))).bind (parseElemSep (b + 1)) = _
      rw [parseValue_obj (hos o (by simp)) (b + 1) (by omega) _ (Or.inl rfl)]
      show (parseArrayElems b ([' '] ++ (renderObjsJ (o2 :: objs'') ++ ']' :: t))).map
        (fun p => (objToJson o :: p.1, p.2)) = _
      have hrec := ih (by simp) (fun g hg => hos g (by simp [hg])) b
        (by
          have hsz2 : szObjs (o :: o2 :: objs'') =
              3 * o.length + 6 + szObjs (o2 :: objs'') := rfl
          omega) t
      rw [parseArrayElems_ws b [' '] _ (by decide), hrec]
      rfl

/-- `parseValue` on a whole repaired supported-shape array literal. -/
theorem parseValue_renderArrJ (objs : List GObj) (h : wfObjs objs = true)
    (f : Nat) (hf : szObjs objs + 3 ≤ f) (t : List Char) :
    parseValue f (renderArrJ objs ++ t) = some (.arr (objs.map objToJson), t) := by
  unfold wfObjs at h
  rw [List.all_eq_true] at h
  obtain ⟨g, rfl⟩ : ∃ g, f = g + 1 + 1 := ⟨f - 2, by omega⟩
  show parseValue (g + 1 + 1) ('[' :: ((renderObjsJ objs ++ [']']) ++ t)) = _
  have hshape : (renderObjsJ objs ++ [']']) ++ t = renderObjsJ objs ++ ']' :: t := by simp
  rw [hshape]
  show parseArrBody (g + 1) ((renderObjsJ objs ++ ']' :: t).dropWhile jsonWs) = _
  cases objs with
  | nil =>
    show parseArrBody (g + 1) ((']' :: t).dropWhile jsonWs) = _
    rw [List.dropWhile_cons_of_neg (by decide)]
    rfl
  | cons o objs' =>
    have hhead : renderObjsJ (o :: objs') ++ ']' :: t =
        '{' :: ((renderObjsJ (o :: objs')).tail ++ ']' :: t) := by
      cases objs' <;> rfl
    rw [hhead, List.dropWhile_cons_of_neg (by decide)]
    show (parseArrayElems g ('{' :: ((renderObjsJ (o :: objs')).tail ++ ']' :: t))).map
      (fun p => (Json.arr p.1, p.2)) = some (Json.arr ((o :: objs').map objToJson), t)
    rw [← hhead, parseArrayElems_render (o :: objs') (by simp) h g (by omega) t]
    rfl

/-- Each rendered JSON field takes at least three characters. -/
theorem renderFieldsJ_length (fs : List (List Char × GLit)) :
    3 * fs.length ≤ (renderFieldsJ fs).length := by
  induction fs with
  | nil => simp [renderFieldsJ]
  | cons f fs' ih =>
    have hfj : 4 ≤ (renderFieldJ f).length := by
      show 4 ≤ ('"' :: (f.1 ++ '"' :: ':' :: ' ' :: renderLitJ f.2)).length
      simp
      omega
    cases fs' with
    | nil =>
      show 3 * 1 ≤ (renderFieldJ f).length
      omega
    | cons f2 fs'' =>
      show 3 * (f2 :: fs'').length + 3 ≤
        (renderFieldJ f ++ ',' :: ' ' :: renderFieldsJ (f2 :: fs'')).length
      simp only [List.length_append, List.length_cons]
      have := ih
      simp only [List.length_cons] at this ⊢
      omega

/-- The parser fuel bound in terms of the rendered text length. -/
theorem szObjs_le (objs : List GObj) :
    szObjs objs ≤ 2 * (renderObjsJ objs).length + 2 := by
  induction objs with
  | nil => simp [szObjs, renderObjsJ]
  | cons o objs' ih =>
    have hobj : 3 * o.length + 6 ≤ 2 * (renderObjJ o).length + 2 := by
      have h1 := renderFieldsJ_length o
      show 3 * o.length + 6 ≤ 2 * ('{' :: (renderFieldsJ o ++ ['}'])).length + 2
      simp only [List.length_cons, List.length_append, List.length_singleton]
      omega
    have hsz : szObjs (o :: objs') = 3 * o.length + 6 + szObjs objs' := rfl
    cases objs' with
    | nil =>
      show szObjs [o] ≤ 2 * (renderObjJ o).length + 2
      rw [hsz]
      show 3 * o.length + 6 + 0 ≤ _
      omega
    | cons o2 objs'' =>
      show _ ≤ 2 * (renderObjJ o ++ ',' :: ' ' :: renderObjsJ (o2 :: objs'')).length + 2
      rw [hsz]
      simp only [List.length_append, List.length_cons]
      omega

/-- `parseJson` on a whole repaired supported-shape array literal. -/
theorem parseJson_renderArrJ (objs : List GObj) (h : wfObjs objs = true) :
    parseJson (renderArrJ objs) = some (.arr (objs.map objToJson)) := by
  have hfuel : szObjs objs + 3 ≤ 2 * (renderArrJ objs).length + 2 := by
    have h1 := szObjs_le objs
    show szObjs objs + 3 ≤ 2 * ('[' :: (renderObjsJ objs ++ [']'])).length + 2
    simp only [List.length_cons, List.length_append, List.length_singleton]
    omega
  have hmain := parseValue_renderArrJ objs h (2 * (renderArrJ objs).length + 2) hfuel []
  rw [List.append_nil] at hmain
  unfold parseJson
  rw [hmain]
  rfl

/-! ### End-to-end extraction -/

/-- On a supported-shape raw text the whole extraction pipeline — capture,
repair and strict parse — recovers exactly the literal's records, in
source order. -/
theorem extract_mkRaw (objs : List GObj) (suffix : List Char) (h : wfObjs objs = true) :
    extractRecords (mkRaw objs suffix) = .ok (.arr (objs.map objToJson)) := by
  unfold extractRecords
  rw [findArrayLiteral_mkRaw objs suffix h]
  show (match parseJson (repair (renderArr objs)) with
    | none => Except.error ExtractErr.parseFailure
    | some v => Except.ok v) = Except.ok (Json.arr (objs.map objToJson))
  rw [repair_renderArr objs h, parseJson_renderArrJ objs h]

/-! ### The quoted segments of the captured and the repaired text -/

/-- `breakAtChar` fails on `q`-free text. -/
theorem breakAtChar_none (q : Char) (cs : List Char) (h : ∀ x ∈ cs, x ≠ q) :
    breakAtChar q cs = none := by
  induction cs with
  | nil => rfl
  | cons c cs' ih =>
    show (if c = q then some (([] : List Char), cs') else
      match breakAtChar q cs' with
      | some p => some (c :: p.1, p.2)
      | none => none) = none
    rw [if_neg (h c (by simp)), ih fun x hx => h x (by simp [hx])]

/-- `breakAtChar` skips a `q`-free prefix. -/
theorem breakAtChar_inert (q : Char) : ∀ (u t : List Char), (∀ x ∈ u, x ≠ q) →
    breakAtChar q (u ++ t) = (breakAtChar q t).map fun p => (u ++ p.1, p.2) := by
  intro u
  induction u with
  | nil =>
    intro t _
    show breakAtChar q t = (breakAtChar q t).map fun p => ([] ++ p.1, p.2)
    cases breakAtChar q t <;> rfl
  | cons c u' ih =>
    intro t hu
    show (if c = q then some (([] : List Char), u' ++ t) else
      match breakAtChar q (u' ++ t) with
      | some p => some (c :: p.1, p.2)
      | none => none) = _
    rw [if_neg (hu c (by simp)), ih t fun x hx => hu x (by simp [hx])]
    cases breakAtChar q t <;> rfl

/-- The fuel of `quotedContentsGo` is irrelevant once it covers the input
length. -/
theorem quotedContentsGo_congr (q : Char) : ∀ (f g : Nat) (cs : List Char),
    cs.length ≤ f → cs.length ≤ g →
    quotedContentsGo q f cs = quotedContentsGo q g cs := by
  intro f
  induction f with
  | zero =>
    intro g cs hf _
    cases cs with
    | nil =>
      cases g with
      | zero => rfl
      | succ g' => rfl
    | cons c cs' => simp at hf
  | succ f' ih =>
    intro g cs hf hg
    cases cs with
    | nil =>
      cases g with
      | zero => rfl
      | succ g' => rfl
    | cons c cs' =>
      obtain ⟨g', rfl⟩ : ∃ g', g = g' + 1 := ⟨g - 1, by simp at hg; omega⟩
      show (match breakAtChar q (c :: cs') with
        | none => []
        | some p =>
          match breakAtChar q p.2 with
          | none => []
          | some p2 => p2.1 :: quotedContentsGo q f' p2.2) =
        (match breakAtChar q (c :: cs') with
        | none => []
        | some p =>
          match breakAtChar q p.2 with
          | none => []
          | some p2 => p2.1 :: quotedContentsGo q g' p2.2)
      cases hb : breakAtChar q (c :: cs') with
      | none => rfl
      | some p =>
        show (match breakAtChar q p.2 with
          | none => []
          | some p2 => p2.1 :: quotedContentsGo q f' p2.2) =
          (match breakAtChar q p.2 with
          | none => []
          | some p2 => p2.1 :: quotedContentsGo q g' p2.2)
        cases hb2 : breakAtChar q p.2 with
        | none => rfl
        | some p2 =>
          show p2.1 :: quotedContentsGo q f' p2.2 = p2.1 :: quotedContentsGo q g' p2.2
          have e1 := breakAtChar_eq hb
          have e2 := breakAtChar_eq hb2
          have hl : (c :: cs').length = p.1.length + 1 + (p2.1.length + 1 + p2.2.length) := by
            rw [e1, e2]
            simp only [List.length_append, List.length_cons]
            omega
          have hlf : (c :: cs').length ≤ f' + 1 := hf
          have hlg : (c :: cs').length ≤ g' + 1 := hg
          rw [ih g' p2.2 (by omega) (by omega)]

/-- Any sufficient fuel computes `quotedContents`. -/
theorem quotedContentsGo_big (q : Char) (f : Nat) (cs : List Char) (h : cs.length ≤ f) :
    quotedContentsGo q f cs = quotedContents q cs :=
  quotedContentsGo_congr q f cs.length cs h (Nat.le_refl _)

/-- A `q`-free prefix contributes no quoted segment. -/
theorem quotedContents_drop_inert (q : Char) (u t : List Char) (hu : ∀ x ∈ u, x ≠ q) :
    quotedContents q (u ++ t) = quotedContents q t := by
  have h1 : quotedContents q (u ++ t) =
      quotedContentsGo q (u.length + t.length + 1) (u ++ t) :=
    (quotedContentsGo_big q (u.length + t.length + 1) (u ++ t)
      (by simp only [List.length_append]; omega)).symm
  have h2 : quotedContents q t = quotedContentsGo q (t.length + 1) t :=
    (quotedContentsGo_big q (t.length + 1) t (by omega)).symm
  rw [h1, h2]
  show (match breakAtChar q (u ++ t) with
    | none => []
    | some p =>
      match breakAtChar q p.2 with
      | none => []
      | some p2 => p2.1 :: quotedContentsGo q (u.length + t.length) p2.2) =
    (match breakAtChar q t with
    | none => []
    | some p =>
      match breakAtChar q p.2 with
      | none => []
      | some p2 => p2.1 :: quotedContentsGo q t.length p2.2)
  rw [breakAtChar_inert q u t hu]
  cases hb : breakAtChar q t with
  | none => rfl
  | some p =>
    show (match breakAtChar q p.2 with
      | none => []
      | some p2 => p2.1 :: quotedContentsGo q (u.length + t.length) p2.2) =
      (match breakAtChar q p.2 with
      | none => []
      | some p2 => p2.1 :: quotedContentsGo q t.length p2.2)
    cases hb2 : breakAtChar q p.2 with
    | none => rfl
    | some p2 =>
      show p2.1 :: quotedContentsGo q (u.length + t.length) p2.2 =
        p2.1 :: quotedContentsGo q t.length p2.2
      have e1 := breakAtChar_eq hb
      have e2 := breakAtChar_eq hb2
      have hl : t.length = p.1.length + 1 + (p2.1.length + 1 + p2.2.length) := by
        rw [e1, e2]
        simp only [List.length_append, List.length_cons]
        omega
      rw [quotedContentsGo_congr q (u.length + t.length) t.length p2.2 (by omega) (by omega)]

/-- A leading quoted pair is the first quoted segment. -/
theorem quotedContents_pair (q : Char) (s t : List Char) (hs : ∀ x ∈ s, x ≠ q) :
    quotedContents q (q :: (s ++ q :: t)) = s :: quotedContents q t := by
  have hlen : (q :: (s ++ q :: t)).length = (s.length + t.length + 1) + 1 := by
    simp only [List.length_cons, List.length_append]
    omega
  show quotedContentsGo q (q :: (s ++ q :: t)).length (q :: (s ++ q :: t)) =
    s :: quotedContents q t
  rw [hlen]
  show (match breakAtChar q (q :: (s ++ q :: t)) with
    | none => []
    | some p =>
      match breakAtChar q p.2 with
      | none => []
      | some p2 => p2.1 :: quotedContentsGo q (s.length + t.length + 1) p2.2) =
    s :: quotedContents q t
  have hb1 : breakAtChar q (q :: (s ++ q :: t)) = some ([], s ++ q :: t) := by
    show (if q = q then some (([] : List Char), s ++ q :: t) else
      match breakAtChar q (s ++ q :: t) with
      | some p => some (q :: p.1, p.2)
      | none => none) = some ([], s ++ q :: t)
    rw [if_pos rfl]
  rw [hb1]
  show (match breakAtChar q (s ++ q :: t) with
    | none => []
    | some p2 => p2.1 :: quotedContentsGo q (s.length + t.length + 1) p2.2) =
    s :: quotedContents q t
  rw [breakAtChar_append q s t hs]
  show s :: quotedContentsGo q (s.length + t.length + 1) t = s :: quotedContents q t
  rw [quotedContentsGo_big q (s.length + t.length + 1) t (by omega)]

/-- The single-quoted segments of a rendered field followed by any text:
exactly the field's string value, if it has one. -/
theorem qc_sq_field (f : List Char × GLit) (rest : List Char) (hf : wfField f = true) :
    quotedContents '\'' (renderField f ++ rest) =
      (match f.2 with
        | .str s => [s]
        | .num _ => ([] : List (List Char))) ++ quotedContents '\'' rest := by
  obtain ⟨k, v⟩ := f
  unfold wfField at hf
  simp only [Bool.and_eq_true] at hf
  obtain ⟨⟨_, hkey⟩, hlit⟩ := hf
  rw [List.all_eq_true] at hkey
  have hkq : ∀ x ∈ k, x ≠ '\'' := fun x hx => (wordChar_facts (hkey x hx)).2.2.2.1
  cases v with
  | num ds =>
    unfold wfLit at hlit
    simp only [Bool.and_eq_true] at hlit
    have hds := hlit.1.2
    rw [List.all_eq_true] at hds
    have hu : ∀ x ∈ k ++ ':' :: ' ' :: ds, x ≠ '\'' := by
      intro x hx
      rcases List.mem_append.mp hx with h | h
      · exact hkq x h
      · rcases List.mem_cons.mp h with rfl | h
        · decide
        · rcases List.mem_cons.mp h with rfl | h
          · decide
          · exact (wordChar_facts (wordChar_of_isDigit (hds x h))).2.2.2.1
    show quotedContents '\'' ((k ++ ':' :: ' ' :: ds) ++ rest) = _
    rw [quotedContents_drop_inert '\'' (k ++ ':' :: ' ' :: ds) rest hu]
    rfl
  | str s =>
    have hs : ∀ x ∈ s, x ≠ '\'' := by
      unfold wfLit at hlit
      rw [List.all_eq_true] at hlit
      exact fun x hx => (safeStrChar_facts (hlit x hx)).1
    have hu : ∀ x ∈ k ++ [':', ' '], x ≠ '\'' := by
      intro x hx
      rcases List.mem_append.mp hx with h | h
      · exact hkq x h
      · rcases List.mem_cons.mp h with rfl | h
        · decide
        · rcases List.mem_cons.mp h with rfl | h
          · decide
          · cases h
    have hshape : renderField (k, GLit.str s) ++ rest =
        (k ++ [':', ' ']) ++ ('\'' :: (s ++ '\'' :: rest)) := by
      show (k ++ ':' :: ' ' :: ('\'' :: (s ++ ['\'']))) ++ rest = _
      simp
    rw [hshape, quotedContents_drop_inert '\'' (k ++ [':', ' ']) _ hu,
      quotedContents_pair '\'' s rest hs]
    rfl

/-- The single-quoted segments of a rendered field list followed by any
text: the string values, in order. -/
theorem qc_sq_fields : ∀ (fs : List (List Char × GLit)) (t : List Char),
    (∀ f ∈ fs, wfField f = true) →
    quotedContents '\'' (renderFields fs ++ t) =
      (fs.filterMap fun f =>
        match f.2 with
        | .str s => some s
        | .num _ => none) ++ quotedContents '\'' t := by
  intro fs
  induction fs with
  | nil => intro t _; rfl
  | cons f fs' ih =>
    intro t hfs
    obtain ⟨k, v⟩ := f
    cases fs' with
    | nil =>
      show quotedContents '\'' (renderField (k, v) ++ t) = _
      rw [qc_sq_field (k, v) t (hfs (k, v) (by simp))]
      cases v <;> rfl
    | cons f2 fs'' =>
      show quotedContents '\''
        ((renderField (k, v) ++ ',' :: ' ' :: renderFields (f2 :: fs'')) ++ t) = _
      have hshape : (renderField (k, v) ++ ',' :: ' ' :: renderFields (f2 :: fs'')) ++ t =
          renderField (k, v) ++ ([',', ' '] ++ (renderFields (f2 :: fs'') ++ t)) := by
        simp
      rw [hshape, qc_sq_field (k, v) _ (hfs (k, v) (by simp)),
        quotedContents_drop_inert '\'' [',', ' '] _ (by decide),
        ih t fun g hg => hfs g (by simp [hg])]
      cases v <;> rfl

/-- The single-quoted segments of a rendered object followed by any text. -/
theorem qc_sq_obj (o : GObj) (rest : List Char) (ho : wfObj o = true) :
    quotedContents '\'' (renderObj o ++ rest) =
      (o.filterMap fun f =>
        match f.2 with
        | .str s => some s
        | .num _ => none) ++ quotedContents '\'' rest := by
  unfold wfObj at ho
  rw [List.all_eq_true] at ho
  have hshape : renderObj o ++ rest = ['{'] ++ (renderFields o ++ ('}' :: rest)) := by
    show ('{' :: (renderFields o ++ ['}'])) ++ rest = _
    simp
  have hclose : quotedContents '\'' ('}' :: rest) = quotedContents '\'' rest :=
    quotedContents_drop_inert '\'' ['}'] rest (by decide)
  rw [hshape, quotedContents_drop_inert '\'' ['{'] _ (by decide),
    qc_sq_fields o ('}' :: rest) ho, hclose]

/-- The single-quoted segments of a rendered object list followed by any
text. -/
theorem qc_sq_objs : ∀ (objs : List GObj) (t : List Char),
    (∀ o ∈ objs, wfObj o = true) →
    quotedContents '\'' (renderObjs objs ++ t) =
      strContents objs ++ quotedContents '\'' t := by
  intro objs
  induction objs with
  | nil => intro t _; rfl
  | cons o objs' ih =>
    intro t hos
    cases objs' with
    | nil =>
      show quotedContents '\'' (renderObj o ++ t) = _
      rw [qc_sq_obj o t (hos o (by simp))]
      simp [strContents]
    | cons o2 objs'' =>
      show quotedContents '\''
        ((renderObj o ++ ',' :: ' ' :: renderObjs (o2 :: objs'')) ++ t) = _
      have hshape : (renderObj o ++ ',' :: ' ' :: renderObjs (o2 :: objs'')) ++ t =
          renderObj o ++ ([',', ' '] ++ (renderObjs (o2 :: objs'') ++ t)) := by
        simp
      rw [hshape, qc_sq_obj o _ (hos o (by simp)),
        quotedContents_drop_inert '\'' [',', ' '] _ (by decide),
        ih t fun g hg => hos g (by simp [hg])]
      simp [strContents]

/-- The single-quoted segments of a rendered supported-shape array are
exactly its string-value contents, in source order. -/
theorem qc_sq_renderArr (objs : List GObj) (h : wfObjs objs = true) :
    quotedContents '\'' (renderArr objs) = strContents objs := by
  unfold wfObjs at h
  rw [List.all_eq_true] at h
  show quotedContents '\'' ('[' :: (renderObjs objs ++ [']'])) = strContents objs
  have hshape : ('[' :: (renderObjs objs ++ [']']) : List Char) =
      ['['] ++ (renderObjs objs ++ [']']) := rfl
  rw [hshape, quotedContents_drop_inert '\'' ['['] _ (by decide),
    qc_sq_objs objs [']'] h]
  have hnil : quotedContents '\'' [']'] = [] := rfl
  rw [hnil, List.append_nil]

/-- The double-quoted segments of a repaired field followed by any text:
the key, then the string content if the value is a string. -/
theorem qc_dq_field (f : List Char × GLit) (rest : List Char) (hf : wfField f = true) :
    quotedContents '"' (renderFieldJ f ++ rest) =
      (match f.2 with
        | .str s => [f.1, s]
        | .num _ => [f.1]) ++ quotedContents '"' rest := by
  obtain ⟨k, v⟩ := f
  unfold wfField at hf
  simp only [Bool.and_eq_true] at hf
  obtain ⟨⟨_, hkey⟩, hlit⟩ := hf
  rw [List.all_eq_true] at hkey
  have hkq : ∀ x ∈ k, x ≠ '"' := fun x hx => (wordChar_facts (hkey x hx)).2.2.2.2.1
  cases v with
  | num ds =>
    unfold wfLit at hlit
    simp only [Bool.and_eq_true] at hlit
    have hds := hlit.1.2
    rw [List.all_eq_true] at hds
    have hin : ∀ x ∈ ':' :: ' ' :: ds, x ≠ '"' := by
      intro x hx
      rcases List.mem_cons.mp hx with rfl | hx
      · decide
      · rcases List.mem_cons.mp hx with rfl | hx
        · decide
        · exact (wordChar_facts (wordChar_of_isDigit (hds x hx))).2.2.2.2.1
    have hshape : renderFieldJ (k, GLit.num ds) ++ rest =
        '"' :: (k ++ '"' :: ((':' :: ' ' :: ds) ++ rest)) := by
      show ('"' :: (k ++ '"' :: ':' :: ' ' :: ds)) ++ rest = _
      simp
    rw [hshape, quotedContents_pair '"' k _ hkq,
      quotedContents_drop_inert '"' (':' :: ' ' :: ds) rest hin]
    rfl
  | str s =>
    have hsq : ∀ x ∈ s, x ≠ '"' := by
      unfold wfLit at hlit
      rw [List.all_eq_true] at hlit
      exact fun x hx => (safeStrChar_facts (hlit x hx)).2.1
    have hshape : renderFieldJ (k, GLit.str s) ++ rest =
        '"' :: (k ++ '"' :: ([':', ' '] ++ ('"' :: (s ++ '"' :: rest)))) := by
      show ('"' :: (k ++ '"' :: ':' :: ' ' :: ('"' :: (s ++ ['"'])))) ++ rest = _
      simp
    rw [hshape, quotedContents_pair '"' k _ hkq,
      quotedContents_drop_inert '"' [':', ' '] _ (by decide),
      quotedContents_pair '"' s rest hsq]
    rfl

/-- The double-quoted segments of a repaired field list followed by any
text. -/
theorem qc_dq_fields : ∀ (fs : List (List Char × GLit)) (t : List Char),
    (∀ f ∈ fs, wfField f = true) →
    quotedContents '"' (renderFieldsJ fs ++ t) =
      (fs.flatMap fun f =>
        match f.2 with
        | .str s => [f.1, s]
        | .num _ => [f.1]) ++ quotedContents '"' t := by
  intro fs
  induction fs with
  | nil => intro t _; rfl
  | cons f fs' ih =>
    intro t hfs
    obtain ⟨k, v⟩ := f
    cases fs' with
    | nil =>
      show quotedContents '"' (renderFieldJ (k, v) ++ t) = _
      rw [qc_dq_field (k, v) t (hfs (k, v) (by simp))]
      cases v <;> simp
    | cons f2 fs'' =>
      show quotedContents '"'
        ((renderFieldJ (k, v) ++ ',' :: ' ' :: renderFieldsJ (f2 :: fs'')) ++ t) = _
      have hshape : (renderFieldJ (k, v) ++ ',' :: ' ' :: renderFieldsJ (f2 :: fs'')) ++ t =
          renderFieldJ (k, v) ++ ([',', ' '] ++ (renderFieldsJ (f2 :: fs'') ++ t)) := by
        simp
      rw [hshape, qc_dq_field (k, v) _ (hfs (k, v) (by simp)),
        quotedContents_drop_inert '"' [',', ' '] _ (by decide),
        ih t fun g hg => hfs g (by simp [hg])]
      cases v <;> simp

/-- The double-quoted segments of a repaired object followed by any text. -/
theorem qc_dq_obj (o : GObj) (rest : List Char) (ho : wfObj o = true) :
    quotedContents '"' (renderObjJ o ++ rest) =
      (o.flatMap fun f =>
        match f.2 with
        | .str s => [f.1, s]
        | .num _ => [f.1]) ++ quotedContents '"' rest := by
  unfold wfObj at ho
  rw [List.all_eq_true] at ho
  have hshape : renderObjJ o ++ rest = ['{'] ++ (renderFieldsJ o ++ ('}' :: rest)) := by
    show ('{' :: (renderFieldsJ o ++ ['}'])) ++ rest = _
    simp
  have hclose : quotedContents '"' ('}' :: rest) = quotedContents '"' rest :=
    quotedContents_drop_inert '"' ['}'] rest (by decide)
  rw [hshape, quotedContents_drop_inert '"' ['{'] _ (by decide),
    qc_dq_fields o ('}' :: rest) ho, hclose]

/-- The double-quoted segments of a repaired object list followed by any
text. -/
theorem qc_dq_objs : ∀ (objs : List GObj) (t : List Char),
    (∀ o ∈ objs, wfObj o = true) →
    quotedContents '"' (renderObjsJ objs ++ t) =
      keysAndContents objs ++ quotedContents '"' t := by
  intro objs
  induction objs with
  | nil => intro t _; rfl
  | cons o objs' ih =>
    intro t hos
    cases objs' with
    | nil =>
      show quotedContents '"' (renderObjJ o ++ t) = _
      rw [qc_dq_obj o t (hos o (by simp))]
      simp [keysAndContents]
    | cons o2 objs'' =>
      show quotedContents '"'
        ((renderObjJ o ++ ',' :: ' ' :: renderObjsJ (o2 :: objs'')) ++ t) = _
      have hshape : (renderObjJ o ++ ',' :: ' ' :: renderObjsJ (o2 :: objs'')) ++ t =
          renderObjJ o ++ ([',', ' '] ++ (renderObjsJ (o2 :: objs'') ++ t)) := by
        simp
      rw [hshape, qc_dq_obj o _ (hos o (by simp)),
        quotedContents_drop_inert '"' [',', ' '] _ (by decide),
        ih t fun g hg => hos g (by simp [hg])]
      simp [keysAndContents]

/-- The double-quoted segments of a repaired supported-shape array are
exactly its keys and string contents, in source order. -/
theorem qc_dq_renderArrJ (objs : List GObj) (h : wfObjs objs = true) :
    quotedContents '"' (renderArrJ objs) = keysAndContents objs := by
  unfold wfObjs at h
  rw [List.all_eq_true] at h
  show quotedContents '"' ('[' :: (renderObjsJ objs ++ [']'])) = keysAndContents objs
  have hshape : ('[' :: (renderObjsJ objs ++ [']']) : List Char) =
      ['['] ++ (renderObjsJ objs ++ [']']) := rfl
  rw [hshape, quotedContents_drop_inert '"' ['['] _ (by decide),
    qc_dq_objs objs [']'] h]
  have hnil : quotedContents '"' [']'] = [] := rfl
  rw [hnil, List.append_nil]

/-! ### Theorems for the extraction claims -/

/-- C2 counterexample: the raw text below contains a valid array literal
assigned to `bicycleDataRaw` — one object whose string value contains
`];` — yet extraction does not return the one-record sequence: the lazy
capture stops at the `];` inside the string, the truncated capture is
not repairable to JSON, and extraction fails. -/
theorem claim2_counterexample_bracket_semicolon_in_string :
    extractRecords ("const bicycleDataRaw = [\x7ba: 'x];y'\x7d];") =
      .error .parseFailure := rfl

/-- C2 (amended): on every supported-shape raw text — the
`bicycleDataRaw` assignment of an array of object literals with bare
word keys and values that are integers or single-quoted strings of safe
characters (no quotes, backslash, `:` or `]`) — extraction succeeds and
returns one record per object literal, in source order, each field
parsed to the corresponding string or number; raw text outside that
shape can make the capture or the repair corrupt the literal and the
extraction fail. -/
theorem claim2_extraction_supported_shape (objs : List GObj) (suffix : List Char)
    (h : wfObjs objs = true) :
    extractRecords (mkRaw objs suffix) = .ok (.arr (objs.map objToJson)) ∧
      (objs.map objToJson).length = objs.length :=
  ⟨extract_mkRaw objs suffix h, by simp⟩

/-- C2 witness: the amended claim at the spec's concrete scenario 1; the
supported-shape raw text is exactly the scenario's raw text, and the
extraction yields exactly its one record. -/
theorem claim2_witness :
    mkRaw [[(("brand").data, GLit.str (("Giro").data)),
        (("model").data, GLit.str (("Syntax").data)),
        (("cost").data, GLit.str (("$150").data)),
        (("score").data, GLit.num (("12").data)),
        (("style").data, GLit.str (("Road").data))]] [] =
      ("const bicycleDataRaw = [\x7bbrand: 'Giro', model: 'Syntax', cost: '$150', score: 12, style: 'Road'\x7d];") ∧
    extractRecords (mkRaw [[(("brand").data, GLit.str (("Giro").data)),
        (("model").data, GLit.str (("Syntax").data)),
        (("cost").data, GLit.str (("$150").data)),
        (("score").data, GLit.num (("12").data)),
        (("style").data, GLit.str (("Road").data))]] []) =
      .ok (.arr ([[(("brand").data, GLit.str (("Giro").data)),
        (("model").data, GLit.str (("Syntax").data)),
        (("cost").data, GLit.str (("$150").data)),
        (("score").data, GLit.num (("12").data)),
        (("style").data, GLit.str (("Road").data))]].map objToJson)) ∧
      ([[(("brand").data, GLit.str (("Giro").data)),
        (("model").data, GLit.str (("Syntax").data)),
        (("cost").data, GLit.str (("$150").data)),
        (("score").data, GLit.num (("12").data)),
        (("style").data, GLit.str (("Road").data))]].map objToJson).length =
        ([[(("brand").data, GLit.str (("Giro").data)),
        (("model").data, GLit.str (("Syntax").data)),
        (("cost").data, GLit.str (("$150").data)),
        (("score").data, GLit.num (("12").data)),
        (("style").data, GLit.str (("Road").data))]] : List GObj).length :=
  ⟨rfl, claim2_extraction_supported_shape [[(("brand").data, GLit.str (("Giro").data)),
        (("model").data, GLit.str (("Syntax").data)),
        (("cost").data, GLit.str (("$150").data)),
        (("score").data, GLit.num (("12").data)),
        (("style").data, GLit.str (("Road").data))]] [] (by decide)⟩

/-- C3 counterexample: the repair does not preserve every single-quoted
string content verbatim — on the captured literal below the string
content is `x:y`, and the key-quoting regex fires on the `x` inside it,
so the repaired text wraps that `x` in double quotes instead of keeping
the content unchanged. -/
theorem claim3_counterexample_colon_inside_string :
    quotedContents '\'' (("[\x7ba: 'x:y'\x7d]").data) = [("x:y").data] ∧
      repair (("[\x7ba: 'x:y'\x7d]").data) = ("[\x7b\"a\": \"\"x\":y\"\x7d]").data :=
  ⟨rfl, rfl⟩

/-- C3 (amended): on every captured supported-shape literal the repair
performs exactly the two advertised rewrites — it takes the literal to
its strict-JSON render, the single-quoted segments of the input are
exactly the string-value contents, and the double-quoted segments of the
output are exactly the bare keys together with those same contents,
verbatim; a string content containing a word followed by a colon is
outside the shape and gets corrupted by the key-quoting regex. -/
theorem claim3_repair_quoting (objs : List GObj) (h : wfObjs objs = true) :
    repair (renderArr objs) = renderArrJ objs ∧
      quotedContents '\'' (renderArr objs) = strContents objs ∧
      quotedContents '"' (renderArrJ objs) = keysAndContents objs :=
  ⟨repair_renderArr objs h, qc_sq_renderArr objs h, qc_dq_renderArrJ objs h⟩

/-- C3 witness: the amended claim at a concrete two-field object. -/
theorem claim3_witness :
    repair (renderArr [[(("a").data, GLit.str (("xy").data)),
        (("n").data, GLit.num (("12").data))]]) =
      renderArrJ [[(("a").data, GLit.str (("xy").data)),
        (("n").data, GLit.num (("12").data))]] ∧
      quotedContents '\'' (renderArr [[(("a").data, GLit.str (("xy").data)),
        (("n").data, GLit.num (("12").data))]]) =
        strContents [[(("a").data, GLit.str (("xy").data)),
        (("n").data, GLit.num (("12").data))]] ∧
      quotedContents '"' (renderArrJ [[(("a").data, GLit.str (("xy").data)),
        (("n").data, GLit.num (("12").data))]]) =
        keysAndContents [[(("a").data, GLit.str (("xy").data)),
        (("n").data, GLit.num (("12").data))]] :=
  claim3_repair_quoting [[(("a").data, GLit.str (("xy").data)),
    (("n").data, GLit.num (("12").data))]] (by decide)

/-- C8: extraction fails exactly in the two advertised cases — it
reports the marker error precisely when the array-literal assignment
cannot be located in the raw text, and the parse error precisely when a
literal was captured but its repaired text is not valid JSON; an empty
array is not an error and yields the empty record sequence. -/
theorem claim8_error_taxonomy (raw : String) :
    (extractRecords raw = .error .markerNotFound ↔ findArrayLiteral raw.data = none) ∧
      (∀ cap, findArrayLiteral raw.data = some cap →
        (extractRecords raw = .error .parseFailure ↔ parseJson (repair cap) = none)) ∧
      extractRecords ("const bicycleDataRaw = [];") = .ok (.arr []) := by
  refine ⟨?_, ?_, rfl⟩
  · unfold extractRecords
    cases hfind : findArrayLiteral raw.data with
    | none => simp
    | some cap =>
      show (match parseJson (repair cap) with
        | none => Except.error ExtractErr.parseFailure
        | some v => Except.ok v) = Except.error ExtractErr.markerNotFound ↔
          some cap = none
      cases parseJson (repair cap) with
      | none => simp
      | some v => simp
  · intro cap hcap
    unfold extractRecords
    rw [hcap]
    show (match parseJson (repair cap) with
      | none => Except.error ExtractErr.parseFailure
      | some v => Except.ok v) = Except.error ExtractErr.parseFailure ↔
        parseJson (repair cap) = none
    cases parseJson (repair cap) with
    | none => simp
    | some v => simp

/-- C8 witness: the taxonomy at concrete raw texts — a text lacking the
assignment fails with the marker error, and a text whose repaired
capture is not valid JSON fails with the parse error. -/
theorem claim8_witness :
    extractRecords ("var otherThing = [1,2];") = .error .markerNotFound ∧
      extractRecords ("const bicycleDataRaw = [\x7ba: 'x];y'\x7d];") =
        .error .parseFailure :=
  ⟨(claim8_error_taxonomy ("var otherThing = [1,2];")).1.mpr rfl,
    ((claim8_error_taxonomy ("const bicycleDataRaw = [\x7ba: 'x];y'\x7d];")).2.1
      (("[\x7ba: 'x]").data) rfl).mpr rfl⟩

/-- C10 (implicit, from the code): `str(value).replace("$", "")` removes
every dollar sign wherever it occurs, not only a leading currency symbol;
hence `"1$50"` coerces to `150` and passes a threshold of `200` instead
of being rejected as non-numeric. -/
theorem claim10_dollar_stripping_everywhere :
    (∀ s : String, (stripDollars s).data = s.data.filter (fun c => c ≠ '$')) ∧
    stripDollars "1$50" = "150" ∧
    coerceCost (Value.str "1$50") = some 150 ∧
    checkThresholdFilter (Value.str "1$50") (Value.num 200) "cost" = true :=
  ⟨fun _ => rfl, by decide, by decide, by decide⟩

end BikeHelmet
